import Mathlib

/-!
Verification of the IoT-dashboard data-processing pipeline
(`src/utils/dataProcessing.ts`): CSV-row deduplication, daily/weekly
aggregation, quartile-based outlier detection and correction, and
time-range filtering.

Modelling conventions for the JavaScript/TypeScript source:
* JS numbers are modelled as `ℚ`; a field value is `Option ℚ`, where
  `none` stands for an absent field or a `NaN` value (both are falsy for
  `x || 0` and both make `Number(x)` fail the `isNaN` test).  Truthy
  non-numeric strings in numeric sensor columns are outside the model:
  the `IoTData` interface declares the sensor fields as `number`, and
  PapaParse's `dynamicTyping` converts numeric cell strings to numbers.
* JS plain objects are modelled as insertion-ordered association lists;
  `Object.values` visits canonical array-index keys first in numeric
  order, then the remaining keys in insertion order, which
  `jsObjValues` reproduces.
* JS string comparison (`<`, default `Array.prototype.sort`) is
  code-unit lexicographic; `strLe` implements that order structurally on
  the character list (identical on the ASCII date strings involved).
* `Date` parsing in the `custom` branch of `filterByTimeRange` is a
  foreign platform function; it is a parameter `jsDate` of the model
  (`none` = Invalid Date, whose comparisons are all false).
-/

namespace DataProcessing

/-! ### JS value and object primitives -/

/-- A JavaScript value as produced by PapaParse with `dynamicTyping`:
a string, a (finite) number, a boolean, or `null`.  An absent property
(`undefined`) is `Option.none` at lookup sites. -/
inductive JSValue where
  | str (s : String)
  | num (q : ℚ)
  | bool (b : Bool)
  | null
deriving DecidableEq

/-- A parsed CSV row before the `as IoTData` cast: a JS object, i.e. an
ordered list of (property name, value) pairs with distinct names. -/
def Row := List (String × JSValue)

instance : DecidableEq Row := fun a b => List.hasDecEq a b

/-- Property read `obj[k]`: first pair with the given key (JS objects
never hold a key twice), `none` = `undefined`. -/
def jsGet {V : Type} (obj : List (String × V)) (k : String) : Option V :=
  (obj.find? (fun p => decide (p.1 = k))).map (·.2)

/-- Property write `obj[k] = v` on a JS object: overwrites in place if
the key exists (keeping its position), otherwise appends. -/
def jsObjInsert {V : Type} (obj : List (String × V)) (k : String) (v : V) :
    List (String × V) :=
  if obj.any (fun p => decide (p.1 = k)) then
    obj.map (fun p => if p.1 = k then (k, v) else p)
  else
    obj ++ [(k, v)]

/-- Numeric value of a digit string (used only to order array-index
keys). -/
def digitsToNat (l : List Char) : ℕ :=
  l.foldl (fun n c => 10 * n + (c.toNat - '0'.toNat)) 0

/-- Whether a JS property name is a canonical array index
(`"0"`, `"1"`, …, below `2^32 - 1`): such keys are enumerated first and
in numeric order by `Object.values`. -/
def isArrayIndexKey (s : String) : Bool :=
  decide (s ≠ "") && s.data.all Char.isDigit &&
    (decide (s = "0") || decide (s.data.head? ≠ some '0')) &&
    decide (digitsToNat s.data < 2 ^ 32 - 1)

/-- Ordering of array-index keys used by JS property enumeration. -/
def idxKeyLe (a b : String) : Prop := digitsToNat a.data ≤ digitsToNat b.data

instance : DecidableRel idxKeyLe := fun a b => Nat.decLe _ _

/-- `Object.values(obj)`: canonical array-index keys first in ascending
numeric order, then all other keys in insertion order. -/
def jsObjValues {V : Type} (obj : List (String × V)) : List V :=
  let idxPairs := obj.filter (fun p => isArrayIndexKey p.1)
  let strPairs := obj.filter (fun p => !isArrayIndexKey p.1)
  (List.insertionSort (fun p q => idxKeyLe p.1 q.1) idxPairs ++ strPairs).map (·.2)

/-! ### CSV parsing (`parseCSVData`, dataProcessing.ts lines 7–32) -/

/-- Column-name normalization `key.replace(/ /g, '_')`. -/
def normalizeKey (k : String) : String :=
  ⟨k.data.map (fun c => if c = ' ' then '_' else c)⟩

/-- Per-row normalization: rebuild the row object inserting every value
under its normalized key, in property order. -/
def normalizeRow (row : Row) : Row :=
  row.foldl (fun acc p => jsObjInsert acc (normalizeKey p.1) p.2) []

/-- The guard `if (!row.Time || typeof row.Time !== 'string') return`:
a row survives iff its `Time` property is a nonempty string, and that
string is the dedup key. -/
def validTime (row : Row) : Option String :=
  match jsGet row "Time" with
  | some (.str s) => if s = "" then none else some s
  | _ => none

/-- JS string coercion of the value used as object key in
`uniqueData[normalizedRow.Time]`.  The parser's guard ensures the key is
always a string; the remaining cases spell out `String(v)` (the decimal
rendering of non-integer numbers is not modelled — numbers never reach
this point because of the `typeof` guard). -/
def jsStringKey : Option JSValue → String
  | some (.str s) => s
  | some (.num q) => if q.den = 1 then toString q.num else toString q.num ++ "/" ++ toString q.den
  | some (.bool b) => if b then "true" else "false"
  | some .null => "null"
  | none => "undefined"

/-- `parseCSVData` on the PapaParse row list: skip rows without a truthy
string `Time`, normalize column names, store each row in the
`uniqueData` object keyed by its timestamp (later rows overwrite earlier
ones under the same key), and return `Object.values(uniqueData)`. -/
def parseCSVData (rows : List Row) : List Row :=
  let uniqueData := rows.foldl
    (fun obj row =>
      match validTime row with
      | none => obj
      | some _ =>
        let normalizedRow := normalizeRow row
        jsObjInsert obj (jsStringKey (jsGet normalizedRow "Time")) normalizedRow)
    []
  jsObjValues uniqueData

/-! ### Generic facts about the insertion-ordered object build -/

/-- First-occurrence deduplication (the key order produced by repeated
`jsObjInsert`, and also the iteration order of a JS `Set`). -/
def firstDedup {α : Type} [DecidableEq α] : List α → List α
  | [] => []
  | a :: rest => a :: firstDedup (rest.filter (fun x => decide (x ≠ a)))
termination_by l => l.length
decreasing_by
  simp only [List.length_cons]
  exact Nat.lt_succ_of_le (List.length_filter_le _ _)

/-- Value stored for key `k` after inserting all of `pairs` in order:
the value of the last pair carrying `k`. -/
def lastVal {V : Type} (pairs : List (String × V)) (k : String) : Option V :=
  ((pairs.filter (fun p => decide (p.1 = k))).map (·.2)).getLast?

/-- Folding `jsObjInsert` over a pair list, starting from the empty
object (the shape of both `uniqueData` and `normalizedRow`). -/
def foldInsert {V : Type} (pairs : List (String × V)) : List (String × V) :=
  pairs.foldl (fun obj p => jsObjInsert obj p.1 p.2) []

theorem jsGet_cons {V : Type} (a : String) (b : V) (l : List (String × V)) (k : String) :
    jsGet ((a, b) :: l) k = if a = k then some b else jsGet l k := by
  simp only [jsGet, List.find?_cons]
  by_cases h : a = k <;> simp [h]

theorem mem_keys_iff_any {V : Type} (obj : List (String × V)) (k : String) :
    obj.any (fun p => decide (p.1 = k)) = true ↔ k ∈ obj.map Prod.fst := by
  rw [List.any_eq_true]
  constructor
  · rintro ⟨p, hp, hp2⟩
    exact List.mem_map.mpr ⟨p, hp, of_decide_eq_true hp2⟩
  · intro hm
    obtain ⟨p, hp, he⟩ := List.mem_map.mp hm
    exact ⟨p, hp, decide_eq_true he⟩

theorem keys_jsObjInsert {V : Type} (obj : List (String × V)) (k : String) (v : V) :
    (jsObjInsert obj k v).map Prod.fst =
      if k ∈ obj.map Prod.fst then obj.map Prod.fst else obj.map Prod.fst ++ [k] := by
  unfold jsObjInsert
  by_cases h : k ∈ obj.map Prod.fst
  · rw [if_pos ((mem_keys_iff_any obj k).mpr h), if_pos h, List.map_map]
    apply List.map_congr_left
    intro p _
    by_cases hp : p.1 = k <;> simp [hp]
  · rw [if_neg (fun hc => h ((mem_keys_iff_any obj k).mp hc)), if_neg h, List.map_append]
    simp

theorem jsGet_append_single {V : Type} (obj : List (String × V)) (k : String) (v : V)
    (k' : String) (h : k ∉ obj.map Prod.fst) :
    jsGet (obj ++ [(k, v)]) k' = if k' = k then some v else jsGet obj k' := by
  induction obj with
  | nil =>
    simp only [List.nil_append, jsGet_cons]
    by_cases hk : k' = k
    · simp [hk]
    · rw [if_neg (Ne.symm hk), if_neg hk]
  | cons a l ih =>
    obtain ⟨a1, a2⟩ := a
    have h1 : a1 ≠ k := fun hc => h (by simp [hc])
    have h2 : k ∉ l.map Prod.fst := fun hc => h (by simp [hc])
    simp only [List.cons_append, jsGet_cons, ih h2]
    by_cases hk : a1 = k'
    · rw [if_pos hk, if_pos hk, if_neg (fun hc => h1 (hk.trans hc))]
    · rw [if_neg hk, if_neg hk]

theorem map_update_id {V : Type} (l : List (String × V)) (k : String) (v : V)
    (h : k ∉ l.map Prod.fst) :
    l.map (fun p => if p.1 = k then (k, v) else p) = l := by
  induction l with
  | nil => rfl
  | cons a l ih =>
    have h1 : a.1 ≠ k := fun hc => h (by simp [hc])
    have h2 : k ∉ l.map Prod.fst := fun hc => h (by simp [hc])
    simp [h1, ih h2]

theorem jsGet_map_update {V : Type} (obj : List (String × V)) (k : String) (v : V)
    (k' : String) (h : k ∈ obj.map Prod.fst) :
    jsGet (obj.map (fun p => if p.1 = k then (k, v) else p)) k' =
      if k' = k then some v else jsGet obj k' := by
  induction obj with
  | nil => simp at h
  | cons a l ih =>
    obtain ⟨a1, a2⟩ := a
    by_cases ha : a1 = k
    · rw [ha]
      by_cases hk : k' = k
      · simp [hk, jsGet_cons]
      · by_cases hl : k ∈ l.map Prod.fst
        · simp [jsGet_cons, ih hl, hk, Ne.symm hk]
        · simp [jsGet_cons, map_update_id l k v hl, hk, Ne.symm hk]
    · have hl : k ∈ l.map Prod.fst := by
        rcases (by simpa using h : k = a1 ∨ k ∈ l.map Prod.fst) with h' | h'
        · exact absurd h'.symm ha
        · exact h'
      have hpair : (fun p => if p.1 = k then (k, v) else p) (a1, a2) = (a1, a2) := by
        simp [ha]
      simp only [List.map_cons, hpair, jsGet_cons, ih hl]
      by_cases hk : a1 = k' <;> by_cases hk2 : k' = k
      · exact absurd (hk.trans hk2) ha
      · simp [hk, hk2]
      · simp [hk, hk2, ha]
      · simp [hk, hk2]

theorem jsObjInsert_eq {V : Type} (obj : List (String × V)) (k : String) (v : V) :
    jsObjInsert obj k v =
      if k ∈ obj.map Prod.fst then obj.map (fun p => if p.1 = k then (k, v) else p)
      else obj ++ [(k, v)] := by
  unfold jsObjInsert
  by_cases h : k ∈ obj.map Prod.fst
  · rw [if_pos ((mem_keys_iff_any obj k).mpr h), if_pos h]
  · rw [if_neg (fun hc => h ((mem_keys_iff_any obj k).mp hc)), if_neg h]

theorem jsGet_jsObjInsert {V : Type} (obj : List (String × V)) (k : String) (v : V)
    (k' : String) :
    jsGet (jsObjInsert obj k v) k' = if k' = k then some v else jsGet obj k' := by
  rw [jsObjInsert_eq]
  by_cases h : k ∈ obj.map Prod.fst
  · rw [if_pos h, jsGet_map_update obj k v k' h]
  · rw [if_neg h, jsGet_append_single obj k v k' h]

theorem mem_firstDedup {α : Type} [DecidableEq α] (l : List α) (x : α) :
    x ∈ firstDedup l ↔ x ∈ l := by
  induction l using firstDedup.induct with
  | case1 => simp [firstDedup]
  | case2 a rest ih =>
    rw [firstDedup]
    by_cases hx : x = a
    · simp [hx]
    · simp only [List.mem_cons, hx, false_or, ih, List.mem_filter,
        decide_eq_true_eq]
      exact ⟨fun h => h.1, fun h => ⟨h, hx⟩⟩

theorem nodup_firstDedup {α : Type} [DecidableEq α] (l : List α) :
    (firstDedup l).Nodup := by
  induction l using firstDedup.induct with
  | case1 => simp [firstDedup]
  | case2 a rest ih =>
    rw [firstDedup]
    refine List.nodup_cons.mpr ⟨fun hc => ?_, ih⟩
    have := (mem_firstDedup _ a).mp hc
    simp at this

theorem firstDedup_concat {α : Type} [DecidableEq α] (l : List α) (a : α) :
    firstDedup (l ++ [a]) = if a ∈ l then firstDedup l else firstDedup l ++ [a] := by
  induction l using firstDedup.induct with
  | case1 => simp [firstDedup]
  | case2 x rest ih =>
    rw [List.cons_append, firstDedup, List.filter_append, firstDedup]
    by_cases hax : a = x
    · simp [hax]
    · have hfa : [a].filter (fun y => decide (y ≠ x)) = [a] := by simp [hax]
      rw [hfa, ih]
      by_cases hm : a ∈ rest.filter (fun y => decide (y ≠ x))
      · have hm' : a ∈ rest := (List.mem_filter.mp hm).1
        simp [hm, hm', hax]
      · have hm' : a ∉ rest := fun hc => hm (List.mem_filter.mpr ⟨hc, by simp [hax]⟩)
        have : a ∉ x :: rest := by simp [hax, hm']
        simp [hm, hm', hax]

theorem lastVal_concat {V : Type} (pairs : List (String × V)) (k : String) (v : V)
    (k' : String) :
    lastVal (pairs ++ [(k, v)]) k' = if k' = k then some v else lastVal pairs k' := by
  unfold lastVal
  rw [List.filter_append, List.map_append]
  by_cases h : k' = k
  · have : [(k, v)].filter (fun p => decide (p.1 = k')) = [(k, v)] := by simp [h.symm]
    rw [this]
    simp [h]
  · have : [(k, v)].filter (fun p => decide (p.1 = k')) = [] := by
      simp; exact fun hc => h hc.symm
    rw [this]
    simp [h]

theorem foldInsert_concat {V : Type} (pairs : List (String × V)) (p : String × V) :
    foldInsert (pairs ++ [p]) = jsObjInsert (foldInsert pairs) p.1 p.2 := by
  unfold foldInsert
  rw [List.foldl_append]
  rfl

theorem foldInsert_keys {V : Type} (pairs : List (String × V)) :
    (foldInsert pairs).map Prod.fst = firstDedup (pairs.map Prod.fst) := by
  induction pairs using List.reverseRecOn with
  | nil => simp [foldInsert, firstDedup]
  | append_singleton l p ih =>
    rw [foldInsert_concat, keys_jsObjInsert, List.map_append, List.map_singleton,
      firstDedup_concat, ih]
    by_cases h : p.1 ∈ l.map Prod.fst
    · rw [if_pos ((mem_firstDedup _ _).mpr h), if_pos h]
    · rw [if_neg (fun hc => h ((mem_firstDedup _ _).mp hc)), if_neg h]

theorem foldInsert_jsGet {V : Type} (pairs : List (String × V)) (k : String) :
    jsGet (foldInsert pairs) k = lastVal pairs k := by
  induction pairs using List.reverseRecOn with
  | nil => rfl
  | append_singleton l p ih =>
    obtain ⟨k0, v0⟩ := p
    rw [foldInsert_concat, jsGet_jsObjInsert, lastVal_concat, ih]

theorem map_snd_eq_of_jsGet {V : Type} (l : List (String × V)) (f : String → V)
    (hnd : (l.map Prod.fst).Nodup)
    (h : ∀ k ∈ l.map Prod.fst, jsGet l k = some (f k)) :
    l.map Prod.snd = (l.map Prod.fst).map f := by
  induction l with
  | nil => rfl
  | cons a l ih =>
    obtain ⟨k0, v0⟩ := a
    have h0 : jsGet ((k0, v0) :: l) k0 = some v0 := by simp [jsGet_cons]
    have hf0 : f k0 = v0 := by
      have := h k0 (by simp)
      rw [h0] at this
      exact (Option.some.injEq _ _).mp this.symm
    have hnd' : (l.map Prod.fst).Nodup := (List.nodup_cons.mp (by simpa using hnd)).2
    have hk0 : k0 ∉ l.map Prod.fst := (List.nodup_cons.mp (by simpa using hnd)).1
    have h' : ∀ k ∈ l.map Prod.fst, jsGet l k = some (f k) := by
      intro k hk
      have hne : k0 ≠ k := fun hc => hk0 (hc ▸ hk)
      have := h k (by simp [hk])
      rwa [jsGet_cons, if_neg hne] at this
    simp only [List.map_cons, ih hnd' h', hf0]

theorem jsObjValues_of_no_idx {V : Type} (obj : List (String × V))
    (h : ∀ p ∈ obj, isArrayIndexKey p.1 = false) :
    jsObjValues obj = obj.map Prod.snd := by
  unfold jsObjValues
  have h1 : obj.filter (fun p => isArrayIndexKey p.1) = [] := by
    rw [List.filter_eq_nil_iff]
    intro p hp
    simp [h p hp]
  have h2 : obj.filter (fun p => !isArrayIndexKey p.1) = obj := by
    rw [List.filter_eq_self]
    intro p hp
    simp [h p hp]
  rw [h1, h2]
  simp [List.insertionSort]

/-! ### `parseCSVData` deduplication -/

theorem validTime_eq_some (row : Row) (s : String) :
    validTime row = some s ↔ jsGet row "Time" = some (.str s) ∧ s ≠ "" := by
  cases h : jsGet row "Time" with
  | none => simp [validTime, h]
  | some v =>
    cases v with
    | str t =>
      simp only [validTime, h]
      by_cases ht : t = ""
      · subst ht
        simp [eq_comm]
      · simp only [if_neg ht]
        constructor
        · intro hv
          have hts := Option.some.inj hv
          subst hts
          exact ⟨rfl, ht⟩
        · rintro ⟨h1, h2⟩
          have h3 : t = s := by
            have h4 := Option.some.inj h1
            injection h4
          rw [h3]
    | num q => simp [validTime, h]
    | bool b => simp [validTime, h]
    | null => simp [validTime, h]

theorem map_normalizeChar_eq {l m : List Char}
    (hm : ∀ c ∈ m, c ≠ '_' ∧ c ≠ ' ')
    (h : l.map (fun c => if c = ' ' then '_' else c) = m) : l = m := by
  induction l generalizing m with
  | nil => simpa using h.symm
  | cons c l ih =>
    cases m with
    | nil => simp at h
    | cons d m =>
      simp only [List.map_cons, List.cons.injEq] at h
      obtain ⟨h1, h2⟩ := h
      have hd := hm d (by simp)
      have hcd : c = d := by
        by_cases hc : c = ' '
        · rw [if_pos hc] at h1
          exact absurd h1.symm hd.1
        · rwa [if_neg hc] at h1
      exact List.cons_eq_cons.mpr ⟨hcd, ih (fun x hx => hm x (by simp [hx])) h2⟩

theorem normalizeKey_eq_iff (k t : String)
    (ht : ∀ c ∈ t.data, c ≠ '_' ∧ c ≠ ' ') :
    normalizeKey k = t ↔ k = t := by
  constructor
  · intro h
    have hdata : k.data.map (fun c => if c = ' ' then '_' else c) = t.data :=
      congrArg String.data h
    exact String.ext (map_normalizeChar_eq ht hdata)
  · rintro rfl
    apply String.ext
    show k.data.map _ = k.data
    rw [List.map_congr_left, List.map_id]
    intro c hc
    simp [(ht c hc).2]

theorem filter_key_of_nodup {V : Type} (l : List (String × V)) (k : String)
    (hnd : (l.map Prod.fst).Nodup) :
    (l.filter (fun p => decide (p.1 = k))).map (·.2) = (jsGet l k).toList := by
  induction l with
  | nil => rfl
  | cons a l ih =>
    obtain ⟨a1, a2⟩ := a
    have hnd' : (l.map Prod.fst).Nodup := (List.nodup_cons.mp (by simpa using hnd)).2
    have ha1 : a1 ∉ l.map Prod.fst := (List.nodup_cons.mp (by simpa using hnd)).1
    by_cases h : a1 = k
    · have hnil : l.filter (fun p => decide (p.1 = k)) = [] := by
        rw [List.filter_eq_nil_iff]
        intro p hp hc
        exact ha1 (List.mem_map.mpr ⟨p, hp, (of_decide_eq_true hc).trans h.symm⟩)
      simp [List.filter_cons, h, hnil, jsGet_cons]
    · simp [List.filter_cons, h, jsGet_cons, ih hnd']

theorem getLast?_option_toList {V : Type} (o : Option V) : o.toList.getLast? = o := by
  cases o <;> rfl

theorem jsGet_normalizeRow_time (row : Row)
    (hnd : (row.map Prod.fst).Nodup) :
    jsGet (normalizeRow row) "Time" = jsGet row "Time" := by
  have hrw : normalizeRow row = foldInsert (row.map (fun p => (normalizeKey p.1, p.2))) := by
    unfold normalizeRow foldInsert
    rw [List.foldl_map]
    rfl
  rw [hrw, foldInsert_jsGet]
  unfold lastVal
  rw [List.filter_map, List.map_map]
  have hpred : ((fun q : String × JSValue => decide (q.1 = "Time")) ∘
      fun p : String × JSValue => (normalizeKey p.1, p.2)) =
      fun p : String × JSValue => decide (p.1 = "Time") := by
    funext p
    simp only [Function.comp_apply, decide_eq_decide]
    exact normalizeKey_eq_iff p.1 "Time" (by decide)
  have hmap : ((fun x : String × JSValue => x.2) ∘
      fun p : String × JSValue => (normalizeKey p.1, p.2)) =
      fun x : String × JSValue => x.2 := rfl
  rw [hpred, hmap, filter_key_of_nodup row "Time" hnd, getLast?_option_toList]

/-- The (timestamp, normalized row) pairs actually inserted into
`uniqueData`, in processing order. -/
def validPairs (rows : List Row) : List (String × Row) :=
  rows.filterMap (fun row => (validTime row).map (fun s => (s, normalizeRow row)))

theorem parseCSVData_eq_foldInsert (rows : List Row)
    (hkeys : ∀ row ∈ rows, (row.map Prod.fst).Nodup) :
    parseCSVData rows = jsObjValues (foldInsert (validPairs rows)) := by
  have main : ∀ (rs : List Row), (∀ row ∈ rs, (row.map Prod.fst).Nodup) →
      ∀ (acc : List (String × Row)),
      rs.foldl
        (fun obj row =>
          match validTime row with
          | none => obj
          | some _ =>
            let normalizedRow := normalizeRow row
            jsObjInsert obj (jsStringKey (jsGet normalizedRow "Time")) normalizedRow)
        acc =
      (validPairs rs).foldl (fun obj p => jsObjInsert obj p.1 p.2) acc := by
    intro rs
    induction rs with
    | nil => intro _ acc; rfl
    | cons row rest ih =>
      intro hks acc
      cases hv : validTime row with
      | none =>
        simp only [List.foldl_cons, hv, validPairs, List.filterMap_cons, Option.map_none']
        exact ih (fun r hr => hks r (by simp [hr])) acc
      | some s =>
        have hjs : jsGet (normalizeRow row) "Time" = some (.str s) := by
          rw [jsGet_normalizeRow_time row (hks row (by simp))]
          exact ((validTime_eq_some row s).mp hv).1
        simp only [List.foldl_cons, hv, validPairs, List.filterMap_cons, Option.map_some',
          hjs, jsStringKey]
        exact ih (fun r hr => hks r (by simp [hr])) _
  exact congrArg jsObjValues (main rows hkeys [])

theorem validPairs_keys (rows : List Row) :
    (validPairs rows).map Prod.fst = rows.filterMap validTime := by
  unfold validPairs
  rw [List.map_filterMap]
  apply List.filterMap_congr
  intro row _
  cases validTime row <;> rfl

theorem validPairs_filter (rows : List Row) (t : String) :
    (validPairs rows).filter (fun p => decide (p.1 = t)) =
      (rows.filter (fun r => decide (validTime r = some t))).map
        (fun r => (t, normalizeRow r)) := by
  induction rows with
  | nil => rfl
  | cons row rest ih =>
    cases hv : validTime row with
    | none =>
      have hne : ¬ validTime row = some t := by simp [hv]
      simp only [validPairs, List.filterMap_cons, hv, Option.map_none', List.filter_cons,
        decide_eq_true_eq]
      rw [if_neg (by simpa using hne)]
      exact ih
    | some s =>
      by_cases hst : s = t
      · subst hst
        simp only [validPairs, List.filterMap_cons, hv, Option.map_some', List.filter_cons]
        rw [if_pos (by simp), if_pos (by simp [hv]), List.map_cons]
        exact List.cons_eq_cons.mpr ⟨rfl, ih⟩
      · simp only [validPairs, List.filterMap_cons, hv, Option.map_some', List.filter_cons]
        rw [if_neg (by simpa using hst), if_neg (by simp [hv, hst])]
        exact ih

theorem getLast?_list_map {α β : Type} (l : List α) (f : α → β) :
    (l.map f).getLast? = l.getLast?.map f := by
  induction l using List.reverseRecOn with
  | nil => rfl
  | append_singleton l a _ => rw [List.map_append, List.map_singleton,
      List.getLast?_concat, List.getLast?_concat]; rfl

theorem mem_of_getLast?_eq_some {α : Type} {l : List α} {a : α}
    (h : l.getLast? = some a) : a ∈ l := by
  induction l using List.reverseRecOn with
  | nil => cases h
  | append_singleton l x _ =>
    rw [List.getLast?_concat] at h
    have := Option.some.inj h
    subst this
    simp

/-- The record stored under timestamp `t`: the normalization of the last
input row whose (truthy, string) `Time` equals `t`. -/
def lastRowFor (rows : List Row) (t : String) : Row :=
  ((rows.filter (fun r => decide (validTime r = some t))).getLast?).getD []

theorem foldInsert_validPairs_jsGet (rows : List Row) (t : String)
    (ht : t ∈ rows.filterMap validTime) :
    jsGet (foldInsert (validPairs rows)) t = some (normalizeRow (lastRowFor rows t)) := by
  rw [foldInsert_jsGet]
  unfold lastVal
  rw [validPairs_filter, List.map_map]
  have hcomp : ((fun x : String × Row => x.2) ∘ fun r => (t, normalizeRow r)) =
      fun r => normalizeRow r := rfl
  rw [hcomp, getLast?_list_map]
  obtain ⟨row, hrow, hv⟩ := List.mem_filterMap.mp ht
  have hne : rows.filter (fun r => decide (validTime r = some t)) ≠ [] := by
    intro hc
    have hm : row ∈ rows.filter (fun r => decide (validTime r = some t)) :=
      List.mem_filter.mpr ⟨hrow, decide_eq_true hv⟩
    rw [hc] at hm
    cases hm
  obtain ⟨r, hr⟩ := Option.isSome_iff_exists.mp (List.getLast?_isSome.mpr hne)
  rw [hr]
  unfold lastRowFor
  rw [hr]
  rfl

/-- Claim C1: `parseCSVData` deduplicates by timestamp.  Under the two
facts guaranteed by the stage feeding it (each PapaParse row object has
distinct property names, and `dynamicTyping` never leaves a
canonical-array-index string — an all-digit numeral — as a string-typed
`Time` value), the output contains exactly one record per `Time` value:
the record holds the field values of the LAST row processed for that
timestamp, and it sits at the position where that `Time` key was FIRST
inserted.  The output is the first-occurrence-deduplicated timestamp
list, mapped over the last matching row of each timestamp. -/
theorem parseCSVData_dedup (rows : List Row)
    (hkeys : ∀ row ∈ rows, (row.map Prod.fst).Nodup)
    (htime : ∀ row ∈ rows, (validTime row).all (fun s => !isArrayIndexKey s) = true) :
    parseCSVData rows =
      (firstDedup (rows.filterMap validTime)).map
        (fun t => normalizeRow (lastRowFor rows t)) ∧
    (parseCSVData rows).map (fun r => jsGet r "Time") =
      (firstDedup (rows.filterMap validTime)).map (fun t => some (JSValue.str t)) ∧
    (firstDedup (rows.filterMap validTime)).Nodup := by
  have h1 := parseCSVData_eq_foldInsert rows hkeys
  have hkeysEq : (foldInsert (validPairs rows)).map Prod.fst =
      firstDedup (rows.filterMap validTime) := by
    rw [foldInsert_keys, validPairs_keys]
  have hnoidx : ∀ p ∈ foldInsert (validPairs rows), isArrayIndexKey p.1 = false := by
    intro p hp
    have hm : p.1 ∈ (foldInsert (validPairs rows)).map Prod.fst :=
      List.mem_map.mpr ⟨p, hp, rfl⟩
    rw [hkeysEq] at hm
    obtain ⟨row, hrow, hv⟩ := List.mem_filterMap.mp ((mem_firstDedup _ _).mp hm)
    have hb := htime row hrow
    rw [hv] at hb
    simpa using hb
  have hval : ∀ t ∈ (foldInsert (validPairs rows)).map Prod.fst,
      jsGet (foldInsert (validPairs rows)) t =
        some (normalizeRow (lastRowFor rows t)) := by
    intro t ht
    rw [hkeysEq] at ht
    exact foldInsert_validPairs_jsGet rows t ((mem_firstDedup _ _).mp ht)
  have hnd : ((foldInsert (validPairs rows)).map Prod.fst).Nodup := by
    rw [hkeysEq]
    exact nodup_firstDedup _
  have hmain : parseCSVData rows =
      (firstDedup (rows.filterMap validTime)).map
        (fun t => normalizeRow (lastRowFor rows t)) := by
    rw [h1, jsObjValues_of_no_idx _ hnoidx,
      map_snd_eq_of_jsGet _ (fun t => normalizeRow (lastRowFor rows t)) hnd hval, hkeysEq]
  refine ⟨hmain, ?_, nodup_firstDedup _⟩
  rw [hmain, List.map_map]
  apply List.map_congr_left
  intro t ht
  obtain ⟨row, hrow, hv⟩ := List.mem_filterMap.mp ((mem_firstDedup _ _).mp ht)
  have hne : rows.filter (fun r => decide (validTime r = some t)) ≠ [] := by
    intro hc
    have hm : row ∈ rows.filter (fun r => decide (validTime r = some t)) :=
      List.mem_filter.mpr ⟨hrow, decide_eq_true hv⟩
    rw [hc] at hm
    cases hm
  obtain ⟨r, hr⟩ := Option.isSome_iff_exists.mp (List.getLast?_isSome.mpr hne)
  have hrmem : r ∈ rows.filter (fun r => decide (validTime r = some t)) :=
    mem_of_getLast?_eq_some hr
  have hrrows : r ∈ rows := (List.mem_filter.mp hrmem).1
  have hrv : validTime r = some t := of_decide_eq_true (List.mem_filter.mp hrmem).2
  show jsGet (normalizeRow (lastRowFor rows t)) "Time" = some (JSValue.str t)
  unfold lastRowFor
  rw [hr]
  show jsGet (normalizeRow r) "Time" = some (JSValue.str t)
  rw [jsGet_normalizeRow_time r (hkeys r hrrows)]
  exact ((validTime_eq_some r t).mp hrv).1

/-- Concrete parser input: two rows sharing the timestamp
`01/01/2024 00:00` (the second must win the values, the first the
position) followed by a distinct timestamp. -/
def c1rows : List Row :=
  [[("Time", .str "01/01/2024 00:00"), ("Flow Rate 1", .num 1)],
   [("Time", .str "01/01/2024 00:00"), ("Flow Rate 1", .num 2)],
   [("Time", .str "01/01/2024 00:30"), ("Flow Rate 1", .num 3)]]

/-- Witness for C1: the hypotheses of `parseCSVData_dedup` hold at
`c1rows` and the dedup description follows by applying the theorem. -/
theorem parseCSVData_dedup_witness :
    ((∀ row ∈ c1rows, (row.map Prod.fst).Nodup) ∧
      (∀ row ∈ c1rows, (validTime row).all (fun s => !isArrayIndexKey s) = true)) ∧
    (parseCSVData c1rows =
      (firstDedup (c1rows.filterMap validTime)).map
        (fun t => normalizeRow (lastRowFor c1rows t)) ∧
    (parseCSVData c1rows).map (fun r => jsGet r "Time") =
      (firstDedup (c1rows.filterMap validTime)).map (fun t => some (JSValue.str t)) ∧
    (firstDedup (c1rows.filterMap validTime)).Nodup) :=
  ⟨⟨by decide, by decide⟩, parseCSVData_dedup c1rows (by decide) (by decide)⟩

/-! ### Typed records (the `IoTData` interface of `types/index.ts`) -/

/-- One sensor sample after the `as IoTData` cast.  `Time` is a string;
every declared sensor field is a JS number, represented as `Option ℚ`
(`none` = absent or `NaN`). -/
structure IoTData where
  Time : String
  PH_58 : Option ℚ
  TEMP_WASSER_58 : Option ℚ
  Water_Level : Option ℚ
  «Trübung_Zulauf» : Option ℚ
  Trubidity_Auslass : Option ℚ
  Flow_Rate_1 : Option ℚ
  Flow_Rate_2 : Option ℚ
  ARA_Flow : Option ℚ
  PH_59 : Option ℚ
  TEMP_WASSER_59 : Option ℚ
deriving DecidableEq

/-- Name of a numeric sensor field, for the dynamic accesses
`item[field]` in `identifyOutliers` / `correctOutliers`. -/
inductive NumField where
  | PH_58
  | TEMP_WASSER_58
  | Water_Level
  | «Trübung_Zulauf»
  | Trubidity_Auslass
  | Flow_Rate_1
  | Flow_Rate_2
  | ARA_Flow
  | PH_59
  | TEMP_WASSER_59
deriving DecidableEq

/-- Dynamic field read `item[field]`. -/
def getField (item : IoTData) : NumField → Option ℚ
  | .PH_58 => item.PH_58
  | .TEMP_WASSER_58 => item.TEMP_WASSER_58
  | .Water_Level => item.Water_Level
  | .«Trübung_Zulauf» => item.«Trübung_Zulauf»
  | .Trubidity_Auslass => item.Trubidity_Auslass
  | .Flow_Rate_1 => item.Flow_Rate_1
  | .Flow_Rate_2 => item.Flow_Rate_2
  | .ARA_Flow => item.ARA_Flow
  | .PH_59 => item.PH_59
  | .TEMP_WASSER_59 => item.TEMP_WASSER_59

/-- Dynamic field write `{ ...item, [field]: v }`. -/
def setField (item : IoTData) : NumField → Option ℚ → IoTData
  | .PH_58, v => { item with PH_58 := v }
  | .TEMP_WASSER_58, v => { item with TEMP_WASSER_58 := v }
  | .Water_Level, v => { item with Water_Level := v }
  | .«Trübung_Zulauf», v => { item with «Trübung_Zulauf» := v }
  | .Trubidity_Auslass, v => { item with Trubidity_Auslass := v }
  | .Flow_Rate_1, v => { item with Flow_Rate_1 := v }
  | .Flow_Rate_2, v => { item with Flow_Rate_2 := v }
  | .ARA_Flow, v => { item with ARA_Flow := v }
  | .PH_59, v => { item with PH_59 := v }
  | .TEMP_WASSER_59, v => { item with TEMP_WASSER_59 := v }

/-- `x || 0` on a JS number field: absent, `NaN` and `0` all give `0`. -/
def orZero (v : Option ℚ) : ℚ := v.getD 0

/-- `Time.split(' ')[0]`: the part of the timestamp before the first
space. -/
def dateToken (s : String) : String :=
  ⟨s.data.takeWhile (fun c => decide (c ≠ ' '))⟩

/-- `Number.MAX_VALUE`, the largest finite double. -/
def NumberMaxValue : ℚ := 2 ^ 1024 - 2 ^ 971

/-! ### Aggregation (`calculateAggregates`, dataProcessing.ts lines 37–126) -/

/-- One entry of `dailyAggregates`. -/
structure DailyAgg where
  date : String
  pumpDuration : ℚ
  flowARA : ℚ
  flowGalgenkanal : ℚ
  avgPH_58 : ℚ
  avgPH_59 : ℚ
  «maxTrübung» : ℚ
  «minTrübung» : ℚ
  dataPoints : ℚ
deriving DecidableEq

/-- The `weeklyAggregates` accumulator. -/
structure WeeklyAgg where
  pumpDuration : ℚ
  totalFlowARA : ℚ
  totalFlowGalgenkanal : ℚ
  avgPH_58 : ℚ
  avgPH_59 : ℚ
  «maxTrübung_Zulauf» : ℚ
  «minTrübung_Zulauf» : ℚ
  «avgTrübung_Zulauf» : ℚ
  dataPoints : ℚ
deriving DecidableEq

/-- Fresh daily bucket for a date (lines 58–69). -/
def freshDaily (date : String) : DailyAgg :=
  { date := date
    pumpDuration := 0
    flowARA := 0
    flowGalgenkanal := 0
    avgPH_58 := 0
    avgPH_59 := 0
    «maxTrübung» := 0
    «minTrübung» := NumberMaxValue
    dataPoints := 0 }

/-- Initial weekly accumulator (lines 42–52). -/
def weeklyInit : WeeklyAgg :=
  { pumpDuration := 0
    totalFlowARA := 0
    totalFlowGalgenkanal := 0
    avgPH_58 := 0
    avgPH_59 := 0
    «maxTrübung_Zulauf» := 0
    «minTrübung_Zulauf» := NumberMaxValue
    «avgTrübung_Zulauf» := 0
    dataPoints := 0 }

/-- Daily-bucket update for one record (lines 72–90). -/
def dailyStep (daily : DailyAgg) (item : IoTData) : DailyAgg :=
  { daily with
    dataPoints := daily.dataPoints + 1
    flowARA := daily.flowARA + orZero item.ARA_Flow
    flowGalgenkanal := daily.flowGalgenkanal + orZero item.Flow_Rate_2
    pumpDuration :=
      if 0 < orZero item.Flow_Rate_1 ∨ 0 < orZero item.Flow_Rate_2 then
        daily.pumpDuration + 1 / 2
      else daily.pumpDuration
    avgPH_58 := daily.avgPH_58 + orZero item.PH_58
    avgPH_59 := daily.avgPH_59 + orZero item.PH_59
    «maxTrübung» := max daily.«maxTrübung» (orZero item.«Trübung_Zulauf»)
    «minTrübung» := min daily.«minTrübung» (orZero item.«Trübung_Zulauf») }

/-- Weekly-accumulator update for one record (lines 92–105). -/
def weeklyStep (w : WeeklyAgg) (item : IoTData) : WeeklyAgg :=
  { w with
    dataPoints := w.dataPoints + 1
    totalFlowARA := w.totalFlowARA + orZero item.ARA_Flow
    totalFlowGalgenkanal := w.totalFlowGalgenkanal + orZero item.Flow_Rate_2
    pumpDuration :=
      if 0 < orZero item.Flow_Rate_1 ∨ 0 < orZero item.Flow_Rate_2 then
        w.pumpDuration + 1 / 2
      else w.pumpDuration
    avgPH_58 := w.avgPH_58 + orZero item.PH_58
    avgPH_59 := w.avgPH_59 + orZero item.PH_59
    «maxTrübung_Zulauf» := max w.«maxTrübung_Zulauf» (orZero item.«Trübung_Zulauf»)
    «minTrübung_Zulauf» := min w.«minTrübung_Zulauf» (orZero item.«Trübung_Zulauf»)
    «avgTrübung_Zulauf» := w.«avgTrübung_Zulauf» + orZero item.«Trübung_Zulauf» }

/-- One iteration of the grouping loop (lines 55–106): create the daily
bucket for the record's date token if absent, update it and the weekly
accumulator.  `dailyAggregates` is modelled as an insertion-ordered
association list (its date-string keys only influence `Object.values`
order, which no lookup observes). -/
def aggStep (acc : List (String × DailyAgg) × WeeklyAgg) (item : IoTData) :
    List (String × DailyAgg) × WeeklyAgg :=
  let date := dateToken item.Time
  let daily0 :=
    if acc.1.any (fun p => decide (p.1 = date)) then acc.1
    else acc.1 ++ [(date, freshDaily date)]
  let daily1 := daily0.map (fun p => if p.1 = date then (p.1, dailyStep p.2 item) else p)
  (daily1, weeklyStep acc.2 item)

/-- Second pass over a daily bucket (lines 109–114): running pH sums
become averages, guarded by `dataPoints > 0`. -/
def finalizeDaily (day : DailyAgg) : DailyAgg :=
  if 0 < day.dataPoints then
    { day with
      avgPH_58 := day.avgPH_58 / day.dataPoints
      avgPH_59 := day.avgPH_59 / day.dataPoints }
  else day

/-- Final pass over the weekly accumulator (lines 117–121). -/
def finalizeWeekly (w : WeeklyAgg) : WeeklyAgg :=
  if 0 < w.dataPoints then
    { w with
      avgPH_58 := w.avgPH_58 / w.dataPoints
      avgPH_59 := w.avgPH_59 / w.dataPoints
      «avgTrübung_Zulauf» := w.«avgTrübung_Zulauf» / w.dataPoints }
  else w

/-- `calculateAggregates`: group records by date token, then convert
running sums to averages. -/
def calculateAggregates (data : List IoTData) :
    List (String × DailyAgg) × WeeklyAgg :=
  let acc := data.foldl aggStep ([], weeklyInit)
  (acc.1.map (fun p => (p.1, finalizeDaily p.2)), finalizeWeekly acc.2)

/-- Lookup `dailyAggregates[date]`. -/
def dailyLookup (m : List (String × DailyAgg)) (date : String) : Option DailyAgg :=
  jsGet m date

/-! ### Analysis of the aggregation fold -/

theorem jsGet_eq_none_iff {V : Type} (obj : List (String × V)) (k : String) :
    jsGet obj k = none ↔ k ∉ obj.map Prod.fst := by
  unfold jsGet
  rw [Option.map_eq_none', List.find?_eq_none]
  constructor
  · intro h hc
    obtain ⟨p, hp, he⟩ := List.mem_map.mp hc
    exact h p hp (by simp [he])
  · intro h p hp
    simp only [decide_eq_true_eq]
    intro hc
    exact h (List.mem_map.mpr ⟨p, hp, hc⟩)

theorem jsGet_isSome_of_mem {V : Type} (obj : List (String × V)) (k : String)
    (h : k ∈ obj.map Prod.fst) : ∃ v, jsGet obj k = some v := by
  cases hj : jsGet obj k with
  | none => exact absurd ((jsGet_eq_none_iff obj k).mp hj) (by simpa using h)
  | some v => exact ⟨v, rfl⟩

theorem jsGet_map_modify {V : Type} (obj : List (String × V)) (k : String) (f : V → V)
    (d : String) :
    jsGet (obj.map (fun p => if p.1 = k then (p.1, f p.2) else p)) d =
      if d = k then (jsGet obj d).map f else jsGet obj d := by
  induction obj with
  | nil => by_cases h : d = k <;> simp [jsGet, h]
  | cons a l ih =>
    obtain ⟨a1, a2⟩ := a
    by_cases ha : a1 = k
    · subst ha
      have hh : (fun p : String × V => if p.1 = a1 then (p.1, f p.2) else p) (a1, a2) =
          (a1, f a2) := by simp
      by_cases hd : a1 = d
      · subst hd
        simp [hh, jsGet_cons]
      · have hd' : ¬ d = a1 := fun hc => hd hc.symm
        simp [List.map_cons, hh, jsGet_cons, ih, hd, hd']
    · have hh : (fun p : String × V => if p.1 = k then (p.1, f p.2) else p) (a1, a2) =
          (a1, a2) := by simp [ha]
      by_cases hd : a1 = d
      · subst hd
        have hdk : ¬ a1 = k := ha
        simp [List.map_cons, hh, jsGet_cons, hdk]
      · have hd' : ¬ d = a1 := fun hc => hd hc.symm
        simp [List.map_cons, hh, jsGet_cons, ih, hd, hd']

theorem jsGet_map_snd {V W : Type} (obj : List (String × V)) (f : V → W) (d : String) :
    jsGet (obj.map (fun p => (p.1, f p.2))) d = (jsGet obj d).map f := by
  induction obj with
  | nil => rfl
  | cons a l ih =>
    obtain ⟨a1, a2⟩ := a
    by_cases hd : a1 = d
    · simp [jsGet_cons, hd]
    · simp [jsGet_cons, hd, ih]

theorem map_modify_id {V : Type} (l : List (String × V)) (k : String) (f : V → V)
    (h : k ∉ l.map Prod.fst) :
    l.map (fun p => if p.1 = k then (p.1, f p.2) else p) = l := by
  induction l with
  | nil => rfl
  | cons a l ih =>
    have h1 : a.1 ≠ k := fun hc => h (by simp [hc])
    have h2 : k ∉ l.map Prod.fst := fun hc => h (by simp [hc])
    simp [h1, ih h2]

theorem jsGet_aggStep_fst (pairs : List (String × DailyAgg)) (w : WeeklyAgg)
    (item : IoTData) (d : String) :
    jsGet ((aggStep (pairs, w) item).1) d =
      if d = dateToken item.Time then
        some (dailyStep ((jsGet pairs d).getD (freshDaily (dateToken item.Time))) item)
      else jsGet pairs d := by
  have hfst : (aggStep (pairs, w) item).1 =
      (if pairs.any (fun p => decide (p.1 = dateToken item.Time)) then pairs
       else pairs ++ [(dateToken item.Time, freshDaily (dateToken item.Time))]).map
        (fun p => if p.1 = dateToken item.Time then (p.1, dailyStep p.2 item) else p) := rfl
  rw [hfst]
  by_cases hmem : pairs.any (fun p => decide (p.1 = dateToken item.Time)) = true
  · have hk : dateToken item.Time ∈ pairs.map Prod.fst := (mem_keys_iff_any _ _).mp hmem
    rw [if_pos hmem, jsGet_map_modify pairs (dateToken item.Time) (fun b => dailyStep b item) d]
    by_cases hd : d = dateToken item.Time
    · obtain ⟨v, hv⟩ := jsGet_isSome_of_mem pairs (dateToken item.Time) hk
      rw [if_pos hd, if_pos hd, hd, hv]
      rfl
    · rw [if_neg hd, if_neg hd]
  · have hk : dateToken item.Time ∉ pairs.map Prod.fst :=
      fun hc => hmem ((mem_keys_iff_any _ _).mpr hc)
    rw [if_neg hmem, List.map_append,
      map_modify_id pairs (dateToken item.Time) (fun b => dailyStep b item) hk]
    have hsing : [(dateToken item.Time, freshDaily (dateToken item.Time))].map
        (fun p => if p.1 = dateToken item.Time then (p.1, dailyStep p.2 item) else p) =
        [(dateToken item.Time, dailyStep (freshDaily (dateToken item.Time)) item)] := by
      simp
    rw [hsing, jsGet_append_single pairs _ _ d hk]
    by_cases hd : d = dateToken item.Time
    · rw [if_pos hd, if_pos hd, hd, (jsGet_eq_none_iff pairs (dateToken item.Time)).mpr hk]
      rfl
    · rw [if_neg hd, if_neg hd]

theorem snd_foldl_aggStep (data : List IoTData) :
    ∀ (pairs : List (String × DailyAgg)) (w : WeeklyAgg),
      (data.foldl aggStep (pairs, w)).2 = data.foldl weeklyStep w := by
  induction data with
  | nil => intro pairs w; rfl
  | cons item rest ih =>
    intro pairs w
    rw [List.foldl_cons, List.foldl_cons]
    exact ih _ _

theorem jsGet_foldl_aggStep (data : List IoTData) (d : String) :
    ∀ (pairs : List (String × DailyAgg)) (w : WeeklyAgg),
      jsGet ((data.foldl aggStep (pairs, w)).1) d =
        match jsGet pairs d with
        | some a =>
          some ((data.filter (fun r => decide (dateToken r.Time = d))).foldl dailyStep a)
        | none =>
          if data.any (fun r => decide (dateToken r.Time = d)) then
            some ((data.filter (fun r => decide (dateToken r.Time = d))).foldl dailyStep
              (freshDaily d))
          else none := by
  induction data with
  | nil =>
    intro pairs w
    cases hj : jsGet pairs d <;> simp [hj]
  | cons item rest ih =>
    intro pairs w
    rw [List.foldl_cons, ← Prod.mk.eta (p := aggStep (pairs, w) item),
      ih (aggStep (pairs, w) item).1 (aggStep (pairs, w) item).2,
      jsGet_aggStep_fst pairs w item d]
    by_cases hd : d = dateToken item.Time
    · subst hd
      rw [if_pos rfl]
      cases hj : jsGet pairs (dateToken item.Time) with
      | some a => simp [List.filter_cons, hj]
      | none => simp [List.filter_cons, List.any_cons, hj]
    · have hcond : decide (dateToken item.Time = d) = false := by
        simp only [decide_eq_false_iff_not]
        exact fun hc => hd hc.symm
      rw [if_neg hd]
      cases hj : jsGet pairs d with
      | some a => simp [List.filter_cons, hcond, hj]
      | none => simp [List.filter_cons, List.any_cons, hcond, hj]

theorem dailyLookup_calculateAggregates (data : List IoTData) (d : String) :
    dailyLookup (calculateAggregates data).1 d =
      if data.any (fun r => decide (dateToken r.Time = d)) then
        some (finalizeDaily
          ((data.filter (fun r => decide (dateToken r.Time = d))).foldl dailyStep
            (freshDaily d)))
      else none := by
  unfold dailyLookup calculateAggregates
  rw [jsGet_map_snd, jsGet_foldl_aggStep data d [] weeklyInit]
  have hnil : jsGet ([] : List (String × DailyAgg)) d = none := rfl
  rw [hnil]
  by_cases h : data.any (fun r => decide (dateToken r.Time = d)) = true
  · simp only [h, if_true, Option.map_some']
  · simp only [h, if_false, Option.map_none', Bool.false_eq_true]

theorem weekly_calculateAggregates (data : List IoTData) :
    (calculateAggregates data).2 = finalizeWeekly (data.foldl weeklyStep weeklyInit) := by
  show finalizeWeekly ((data.foldl aggStep ([], weeklyInit)).2) = _
  rw [snd_foldl_aggStep data [] weeklyInit]

theorem foldl_dailyStep_dataPoints (l : List IoTData) (a : DailyAgg) :
    (l.foldl dailyStep a).dataPoints = a.dataPoints + l.length := by
  induction l generalizing a with
  | nil => simp
  | cons r rest ih =>
    rw [List.foldl_cons, ih]
    simp only [dailyStep, List.length_cons]
    push_cast
    ring

theorem foldl_dailyStep_flowARA (l : List IoTData) (a : DailyAgg) :
    (l.foldl dailyStep a).flowARA = a.flowARA + (l.map (fun r => orZero r.ARA_Flow)).sum := by
  induction l generalizing a with
  | nil => simp
  | cons r rest ih =>
    rw [List.foldl_cons, ih]
    simp only [dailyStep, List.map_cons, List.sum_cons]
    ring

theorem foldl_dailyStep_flowGalgenkanal (l : List IoTData) (a : DailyAgg) :
    (l.foldl dailyStep a).flowGalgenkanal =
      a.flowGalgenkanal + (l.map (fun r => orZero r.Flow_Rate_2)).sum := by
  induction l generalizing a with
  | nil => simp
  | cons r rest ih =>
    rw [List.foldl_cons, ih]
    simp only [dailyStep, List.map_cons, List.sum_cons]
    ring

theorem foldl_dailyStep_avgPH_58 (l : List IoTData) (a : DailyAgg) :
    (l.foldl dailyStep a).avgPH_58 = a.avgPH_58 + (l.map (fun r => orZero r.PH_58)).sum := by
  induction l generalizing a with
  | nil => simp
  | cons r rest ih =>
    rw [List.foldl_cons, ih]
    simp only [dailyStep, List.map_cons, List.sum_cons]
    ring

theorem foldl_dailyStep_avgPH_59 (l : List IoTData) (a : DailyAgg) :
    (l.foldl dailyStep a).avgPH_59 = a.avgPH_59 + (l.map (fun r => orZero r.PH_59)).sum := by
  induction l generalizing a with
  | nil => simp
  | cons r rest ih =>
    rw [List.foldl_cons, ih]
    simp only [dailyStep, List.map_cons, List.sum_cons]
    ring

theorem foldl_dailyStep_pumpDuration (l : List IoTData) (a : DailyAgg) :
    (l.foldl dailyStep a).pumpDuration = a.pumpDuration +
      1 / 2 * (l.countP
        (fun r => decide (0 < orZero r.Flow_Rate_1 ∨ 0 < orZero r.Flow_Rate_2)) : ℕ) := by
  induction l generalizing a with
  | nil => simp
  | cons r rest ih =>
    rw [List.foldl_cons, ih, List.countP_cons]
    by_cases hc : 0 < orZero r.Flow_Rate_1 ∨ 0 < orZero r.Flow_Rate_2
    · simp only [dailyStep, if_pos hc, decide_eq_true hc, if_pos rfl]
      push_cast
      ring
    · have : decide (0 < orZero r.Flow_Rate_1 ∨ 0 < orZero r.Flow_Rate_2) = false :=
        decide_eq_false hc
      simp only [dailyStep, if_neg hc, this, Bool.false_eq_true, if_false]
      push_cast
      ring

theorem foldl_weeklyStep_dataPoints (l : List IoTData) (a : WeeklyAgg) :
    (l.foldl weeklyStep a).dataPoints = a.dataPoints + l.length := by
  induction l generalizing a with
  | nil => simp
  | cons r rest ih =>
    rw [List.foldl_cons, ih]
    simp only [weeklyStep, List.length_cons]
    push_cast
    ring

theorem foldl_weeklyStep_totalFlowARA (l : List IoTData) (a : WeeklyAgg) :
    (l.foldl weeklyStep a).totalFlowARA =
      a.totalFlowARA + (l.map (fun r => orZero r.ARA_Flow)).sum := by
  induction l generalizing a with
  | nil => simp
  | cons r rest ih =>
    rw [List.foldl_cons, ih]
    simp only [weeklyStep, List.map_cons, List.sum_cons]
    ring

theorem foldl_weeklyStep_totalFlowGalgenkanal (l : List IoTData) (a : WeeklyAgg) :
    (l.foldl weeklyStep a).totalFlowGalgenkanal =
      a.totalFlowGalgenkanal + (l.map (fun r => orZero r.Flow_Rate_2)).sum := by
  induction l generalizing a with
  | nil => simp
  | cons r rest ih =>
    rw [List.foldl_cons, ih]
    simp only [weeklyStep, List.map_cons, List.sum_cons]
    ring

theorem foldl_weeklyStep_avgTr (l : List IoTData) (a : WeeklyAgg) :
    (l.foldl weeklyStep a).«avgTrübung_Zulauf» =
      a.«avgTrübung_Zulauf» + (l.map (fun r => orZero r.«Trübung_Zulauf»)).sum := by
  induction l generalizing a with
  | nil => simp
  | cons r rest ih =>
    rw [List.foldl_cons, ih]
    simp only [weeklyStep, List.map_cons, List.sum_cons]
    ring

theorem sum_orZero_filterMap (f : IoTData → Option ℚ) (l : List IoTData) :
    (l.map (fun r => orZero (f r))).sum = (l.filterMap f).sum := by
  induction l with
  | nil => rfl
  | cons r rest ih =>
    have ih' : (rest.map (fun r => (f r).getD 0)).sum = (rest.filterMap f).sum := by
      simpa [orZero] using ih
    cases hf : f r <;> simp [List.filterMap_cons, hf, orZero, ih']

theorem countP_pump_eq (l : List IoTData) :
    l.countP (fun r => decide (0 < orZero r.Flow_Rate_1 ∨ 0 < orZero r.Flow_Rate_2)) =
      l.countP (fun r => r.Flow_Rate_1.any (fun x => decide (0 < x)) ||
        r.Flow_Rate_2.any (fun x => decide (0 < x))) := by
  have hb : ∀ r : IoTData,
      decide (0 < orZero r.Flow_Rate_1 ∨ 0 < orZero r.Flow_Rate_2) =
        (r.Flow_Rate_1.any (fun x => decide (0 < x)) ||
          r.Flow_Rate_2.any (fun x => decide (0 < x))) := by
    intro r
    cases h1 : r.Flow_Rate_1 <;> cases h2 : r.Flow_Rate_2 <;>
      simp [orZero, h1, h2]
  induction l with
  | nil => rfl
  | cons r rest ih => rw [List.countP_cons, List.countP_cons, ih, hb r]

theorem finalizeDaily_pumpDuration (day : DailyAgg) :
    (finalizeDaily day).pumpDuration = day.pumpDuration := by
  unfold finalizeDaily
  by_cases hc : 0 < day.dataPoints <;> simp [hc]

theorem finalizeDaily_flowARA (day : DailyAgg) :
    (finalizeDaily day).flowARA = day.flowARA := by
  unfold finalizeDaily
  by_cases hc : 0 < day.dataPoints <;> simp [hc]

theorem finalizeDaily_flowGalgenkanal (day : DailyAgg) :
    (finalizeDaily day).flowGalgenkanal = day.flowGalgenkanal := by
  unfold finalizeDaily
  by_cases hc : 0 < day.dataPoints <;> simp [hc]

theorem finalizeDaily_dataPoints (day : DailyAgg) :
    (finalizeDaily day).dataPoints = day.dataPoints := by
  unfold finalizeDaily
  by_cases hc : 0 < day.dataPoints <;> simp [hc]

theorem finalizeWeekly_totalFlowARA (w : WeeklyAgg) :
    (finalizeWeekly w).totalFlowARA = w.totalFlowARA := by
  unfold finalizeWeekly
  by_cases hc : 0 < w.dataPoints <;> simp [hc]

theorem finalizeWeekly_totalFlowGalgenkanal (w : WeeklyAgg) :
    (finalizeWeekly w).totalFlowGalgenkanal = w.totalFlowGalgenkanal := by
  unfold finalizeWeekly
  by_cases hc : 0 < w.dataPoints <;> simp [hc]

theorem finalizeWeekly_dataPoints (w : WeeklyAgg) :
    (finalizeWeekly w).dataPoints = w.dataPoints := by
  unfold finalizeWeekly
  by_cases hc : 0 < w.dataPoints <;> simp [hc]

theorem dailyLookup_some_elim (data : List IoTData) (d : String) (agg : DailyAgg)
    (h : dailyLookup (calculateAggregates data).1 d = some agg) :
    data.any (fun r => decide (dateToken r.Time = d)) = true ∧
    agg = finalizeDaily
      ((data.filter (fun r => decide (dateToken r.Time = d))).foldl dailyStep
        (freshDaily d)) := by
  rw [dailyLookup_calculateAggregates] at h
  by_cases hany : data.any (fun r => decide (dateToken r.Time = d)) = true
  · rw [if_pos hany] at h
    exact ⟨hany, (Option.some.inj h).symm⟩
  · rw [if_neg hany] at h
    cases h

/-- Claim C2: each daily bucket's `pumpDuration` is `0.5` times the
number of that day's records in which `Flow_Rate_1 > 0` or
`Flow_Rate_2 > 0` (and is incremented for no other record), and
`flowARA` is the sum of the day's `ARA_Flow` values. -/
theorem calculateAggregates_pump_flow (data : List IoTData) (d : String) (agg : DailyAgg)
    (h : dailyLookup (calculateAggregates data).1 d = some agg) :
    agg.pumpDuration = 1 / 2 *
      ((data.filter (fun r => decide (dateToken r.Time = d))).countP
        (fun r => r.Flow_Rate_1.any (fun x => decide (0 < x)) ||
          r.Flow_Rate_2.any (fun x => decide (0 < x))) : ℕ) ∧
    agg.flowARA =
      ((data.filter (fun r => decide (dateToken r.Time = d))).filterMap
        (fun r => r.ARA_Flow)).sum := by
  obtain ⟨-, hagg⟩ := dailyLookup_some_elim data d agg h
  subst hagg
  constructor
  · rw [finalizeDaily_pumpDuration, foldl_dailyStep_pumpDuration, countP_pump_eq]
    simp [freshDaily]
  · rw [finalizeDaily_flowARA, foldl_dailyStep_flowARA, sum_orZero_filterMap]
    simp [freshDaily]

/-- A record with every sensor field absent. -/
def sampleRec (time : String) : IoTData :=
  { Time := time
    PH_58 := none
    TEMP_WASSER_58 := none
    Water_Level := none
    «Trübung_Zulauf» := none
    Trubidity_Auslass := none
    Flow_Rate_1 := none
    Flow_Rate_2 := none
    ARA_Flow := none
    PH_59 := none
    TEMP_WASSER_59 := none }

/-- Two same-day records with `ARA_Flow` 3 and 5 and `Flow_Rate_1` 1. -/
def c2data : List IoTData :=
  [{ sampleRec "01/01/2024 00:00" with ARA_Flow := some 3, Flow_Rate_1 := some 1 },
   { sampleRec "01/01/2024 00:30" with ARA_Flow := some 5, Flow_Rate_1 := some 1 }]

/-- The daily bucket `calculateAggregates` produces for `c2data`. -/
def c2agg : DailyAgg :=
  { date := "01/01/2024"
    pumpDuration := 1
    flowARA := 8
    flowGalgenkanal := 0
    avgPH_58 := 0
    avgPH_59 := 0
    «maxTrübung» := 0
    «minTrübung» := 0
    dataPoints := 2 }

theorem c2data_lookup :
    dailyLookup (calculateAggregates c2data).1 "01/01/2024" = some c2agg := by
  rw [dailyLookup_calculateAggregates,
    if_pos (show c2data.any (fun r => decide (dateToken r.Time = "01/01/2024")) = true
      by decide),
    show c2data.filter (fun r => decide (dateToken r.Time = "01/01/2024")) = c2data
      by decide]
  simp only [c2data, List.foldl_cons, List.foldl_nil]
  norm_num [dailyStep, freshDaily, finalizeDaily, orZero, sampleRec, c2agg,
    NumberMaxValue]

/-- Witness for C2: on the spec's concrete example (two same-day records
with `ARA_Flow` 3 and 5, both with `Flow_Rate_1 = 1`), `flowARA` is 8
and `pumpDuration` is 1.0. -/
theorem calculateAggregates_pump_flow_witness :
    dailyLookup (calculateAggregates c2data).1 "01/01/2024" = some c2agg ∧
    c2agg.flowARA = 8 ∧ c2agg.pumpDuration = 1 := by
  have h := calculateAggregates_pump_flow c2data "01/01/2024" c2agg c2data_lookup
  refine ⟨c2data_lookup, ?_, ?_⟩
  · rw [h.2,
      show c2data.filter (fun r => decide (dateToken r.Time = "01/01/2024")) = c2data
        by decide,
      show c2data.filterMap (fun r => r.ARA_Flow) = [3, 5] by decide]
    norm_num
  · rw [h.1,
      show (c2data.filter (fun r => decide (dateToken r.Time = "01/01/2024"))).countP
        (fun r => r.Flow_Rate_1.any (fun x => decide (0 < x)) ||
          r.Flow_Rate_2.any (fun x => decide (0 < x))) = 2 by decide]
    norm_num

/-- Claim C7: a record whose `ARA_Flow` (resp. `Flow_Rate_2`) is absent
or `NaN` contributes exactly 0 to `flowARA` (resp. `flowGalgenkanal`),
so the daily fields and the weekly totals equal the sums over only the
records carrying numeric values. -/
theorem aggregates_missing_contributes_zero (data : List IoTData) (d : String)
    (agg : DailyAgg) (h : dailyLookup (calculateAggregates data).1 d = some agg) :
    (∀ (day : DailyAgg) (r : IoTData), r.ARA_Flow = none →
      (dailyStep day r).flowARA = day.flowARA) ∧
    (∀ (day : DailyAgg) (r : IoTData), r.Flow_Rate_2 = none →
      (dailyStep day r).flowGalgenkanal = day.flowGalgenkanal) ∧
    agg.flowARA =
      ((data.filter (fun r => decide (dateToken r.Time = d))).filterMap
        (fun r => r.ARA_Flow)).sum ∧
    agg.flowGalgenkanal =
      ((data.filter (fun r => decide (dateToken r.Time = d))).filterMap
        (fun r => r.Flow_Rate_2)).sum ∧
    (calculateAggregates data).2.totalFlowARA =
      (data.filterMap (fun r => r.ARA_Flow)).sum ∧
    (calculateAggregates data).2.totalFlowGalgenkanal =
      (data.filterMap (fun r => r.Flow_Rate_2)).sum := by
  obtain ⟨-, hagg⟩ := dailyLookup_some_elim data d agg h
  subst hagg
  refine ⟨?_, ?_, ?_, ?_, ?_, ?_⟩
  · intro day r hr
    simp [dailyStep, hr, orZero]
  · intro day r hr
    simp [dailyStep, hr, orZero]
  · rw [finalizeDaily_flowARA, foldl_dailyStep_flowARA, sum_orZero_filterMap]
    simp [freshDaily]
  · rw [finalizeDaily_flowGalgenkanal, foldl_dailyStep_flowGalgenkanal,
      sum_orZero_filterMap]
    simp [freshDaily]
  · rw [weekly_calculateAggregates, finalizeWeekly_totalFlowARA,
      foldl_weeklyStep_totalFlowARA, sum_orZero_filterMap]
    simp [weeklyInit]
  · rw [weekly_calculateAggregates, finalizeWeekly_totalFlowGalgenkanal,
      foldl_weeklyStep_totalFlowGalgenkanal, sum_orZero_filterMap]
    simp [weeklyInit]

/-- One record with numeric `ARA_Flow`, one lacking both `ARA_Flow` and
`Flow_Rate_2`, one with numeric `Flow_Rate_2`. -/
def c7data : List IoTData :=
  [{ sampleRec "03/01/2024 00:00" with ARA_Flow := some 3 },
   sampleRec "03/01/2024 00:30",
   { sampleRec "03/01/2024 01:00" with Flow_Rate_2 := some 4 }]

/-- The daily bucket `calculateAggregates` produces for `c7data`. -/
def c7agg : DailyAgg :=
  { date := "03/01/2024"
    pumpDuration := 1 / 2
    flowARA := 3
    flowGalgenkanal := 4
    avgPH_58 := 0
    avgPH_59 := 0
    «maxTrübung» := 0
    «minTrübung» := 0
    dataPoints := 3 }

theorem c7data_lookup :
    dailyLookup (calculateAggregates c7data).1 "03/01/2024" = some c7agg := by
  rw [dailyLookup_calculateAggregates,
    if_pos (show c7data.any (fun r => decide (dateToken r.Time = "03/01/2024")) = true
      by decide),
    show c7data.filter (fun r => decide (dateToken r.Time = "03/01/2024")) = c7data
      by decide]
  simp only [c7data, List.foldl_cons, List.foldl_nil]
  norm_num [dailyStep, freshDaily, finalizeDaily, orZero, sampleRec, c7agg,
    NumberMaxValue]

/-- Witness for C7: with one record missing `ARA_Flow` (and one missing
`Flow_Rate_2`), the totals are exactly the sums of the present numeric
values. -/
theorem aggregates_missing_contributes_zero_witness :
    dailyLookup (calculateAggregates c7data).1 "03/01/2024" = some c7agg ∧
    c7agg.flowARA = 3 ∧ c7agg.flowGalgenkanal = 4 := by
  have h := aggregates_missing_contributes_zero c7data "03/01/2024" c7agg c7data_lookup
  refine ⟨c7data_lookup, ?_, ?_⟩
  · rw [h.2.2.1,
      show (c7data.filter (fun r => decide (dateToken r.Time = "03/01/2024"))).filterMap
        (fun r => r.ARA_Flow) = [3] by decide]
    norm_num
  · rw [h.2.2.2.1,
      show (c7data.filter (fun r => decide (dateToken r.Time = "03/01/2024"))).filterMap
        (fun r => r.Flow_Rate_2) = [4] by decide]
    norm_num

theorem finalizeDaily_avg (day : DailyAgg) (hpos : 0 < day.dataPoints) :
    (finalizeDaily day).avgPH_58 = day.avgPH_58 / day.dataPoints ∧
    (finalizeDaily day).avgPH_59 = day.avgPH_59 / day.dataPoints := by
  unfold finalizeDaily
  rw [if_pos hpos]
  exact ⟨rfl, rfl⟩

/-- Claim C5 (amended): the reported pH averages — and the weekly
turbidity average — divide the running sum of present values
(absent/`NaN` counted as 0) by the group's TOTAL record count
`dataPoints`, not by the number of samples in which the field is
present; a record lacking the field therefore does change the reported
average. -/
theorem aggregates_avg_over_all_records (data : List IoTData) (d : String)
    (agg : DailyAgg) (h : dailyLookup (calculateAggregates data).1 d = some agg) :
    agg.dataPoints =
      ((data.filter (fun r => decide (dateToken r.Time = d))).length : ℕ) ∧
    agg.avgPH_58 =
      ((data.filter (fun r => decide (dateToken r.Time = d))).map
        (fun r => orZero r.PH_58)).sum /
      ((data.filter (fun r => decide (dateToken r.Time = d))).length : ℕ) ∧
    agg.avgPH_59 =
      ((data.filter (fun r => decide (dateToken r.Time = d))).map
        (fun r => orZero r.PH_59)).sum /
      ((data.filter (fun r => decide (dateToken r.Time = d))).length : ℕ) ∧
    (data ≠ [] → (calculateAggregates data).2.«avgTrübung_Zulauf» =
      (data.map (fun r => orZero r.«Trübung_Zulauf»)).sum / (data.length : ℕ)) := by
  obtain ⟨hany, hagg⟩ := dailyLookup_some_elim data d agg h
  have hLne : data.filter (fun r => decide (dateToken r.Time = d)) ≠ [] := by
    obtain ⟨r, hr, hpred⟩ := List.any_eq_true.mp hany
    intro hc
    have hm : r ∈ data.filter (fun r => decide (dateToken r.Time = d)) :=
      List.mem_filter.mpr ⟨hr, hpred⟩
    rw [hc] at hm
    cases hm
  have hlen : 0 < (data.filter (fun r => decide (dateToken r.Time = d))).length :=
    List.length_pos.mpr hLne
  have hdp : ((data.filter (fun r => decide (dateToken r.Time = d))).foldl dailyStep
      (freshDaily d)).dataPoints =
      ((data.filter (fun r => decide (dateToken r.Time = d))).length : ℕ) := by
    rw [foldl_dailyStep_dataPoints]
    simp [freshDaily]
  have hpos : (0 : ℚ) < ((data.filter (fun r => decide (dateToken r.Time = d))).foldl
      dailyStep (freshDaily d)).dataPoints := by
    rw [hdp]
    exact_mod_cast hlen
  subst hagg
  refine ⟨?_, ?_, ?_, ?_⟩
  · rw [finalizeDaily_dataPoints, hdp]
  · rw [(finalizeDaily_avg _ hpos).1, foldl_dailyStep_avgPH_58, hdp]
    simp [freshDaily]
  · rw [(finalizeDaily_avg _ hpos).2, foldl_dailyStep_avgPH_59, hdp]
    simp [freshDaily]
  · intro hne
    rw [weekly_calculateAggregates]
    have hw : (data.foldl weeklyStep weeklyInit).dataPoints = (data.length : ℕ) := by
      rw [foldl_weeklyStep_dataPoints]
      simp [weeklyInit]
    have hwpos : (0 : ℚ) < (data.foldl weeklyStep weeklyInit).dataPoints := by
      rw [hw]
      exact_mod_cast List.length_pos.mpr hne
    unfold finalizeWeekly
    rw [if_pos hwpos]
    show (data.foldl weeklyStep weeklyInit).«avgTrübung_Zulauf» /
        (data.foldl weeklyStep weeklyInit).dataPoints = _
    rw [foldl_weeklyStep_avgTr, hw]
    simp [weeklyInit]

/-- Two same-day records, one with `PH_58 = 4`, one lacking `PH_58`. -/
def c5data : List IoTData :=
  [{ sampleRec "02/01/2024 00:00" with PH_58 := some 4 },
   sampleRec "02/01/2024 00:30"]

/-- Counterexample to C5 as stated: with one sample `PH_58 = 4` and one
sample lacking the field, the arithmetic mean over the samples carrying
the field is 4, but the code reports `avgPH_58 = 2` — the record
without the field DOES change the reported average (it divides the sum
by all `dataPoints`). -/
theorem aggregates_avg_presence_counterexample :
    (dailyLookup (calculateAggregates c5data).1 "02/01/2024").map
      (fun a => a.avgPH_58) = some 2 ∧
    ((c5data.filterMap (fun r => r.PH_58)).sum /
      ((c5data.filterMap (fun r => r.PH_58)).length : ℕ) : ℚ) = 4 ∧
    (2 : ℚ) ≠ 4 := by
  refine ⟨?_, ?_, by norm_num⟩
  · rw [dailyLookup_calculateAggregates,
      if_pos (show c5data.any (fun r => decide (dateToken r.Time = "02/01/2024")) = true
        by decide),
      show c5data.filter (fun r => decide (dateToken r.Time = "02/01/2024")) = c5data
        by decide]
    simp only [c5data, List.foldl_cons, List.foldl_nil]
    norm_num [dailyStep, freshDaily, finalizeDaily, orZero, sampleRec, NumberMaxValue]
  · rw [show c5data.filterMap (fun r => r.PH_58) = [4] by decide]
    norm_num

/-- The daily bucket `calculateAggregates` produces for `c5data`. -/
def c5agg : DailyAgg :=
  { date := "02/01/2024"
    pumpDuration := 0
    flowARA := 0
    flowGalgenkanal := 0
    avgPH_58 := 2
    avgPH_59 := 0
    «maxTrübung» := 0
    «minTrübung» := 0
    dataPoints := 2 }

theorem c5data_lookup :
    dailyLookup (calculateAggregates c5data).1 "02/01/2024" = some c5agg := by
  rw [dailyLookup_calculateAggregates,
    if_pos (show c5data.any (fun r => decide (dateToken r.Time = "02/01/2024")) = true
      by decide),
    show c5data.filter (fun r => decide (dateToken r.Time = "02/01/2024")) = c5data
      by decide]
  simp only [c5data, List.foldl_cons, List.foldl_nil]
  norm_num [dailyStep, freshDaily, finalizeDaily, orZero, sampleRec, c5agg,
    NumberMaxValue]

/-- Witness for the amended C5: on `c5data` the reported `avgPH_58` is
the sum of present values divided by both records, i.e. `4 / 2 = 2`. -/
theorem aggregates_avg_over_all_records_witness :
    dailyLookup (calculateAggregates c5data).1 "02/01/2024" = some c5agg ∧
    c5agg.avgPH_58 = 2 ∧ c5agg.dataPoints = 2 := by
  have h := aggregates_avg_over_all_records c5data "02/01/2024" c5agg c5data_lookup
  refine ⟨c5data_lookup, ?_, ?_⟩
  · rw [h.2.1,
      show (c5data.filter (fun r => decide (dateToken r.Time = "02/01/2024"))).map
        (fun r => orZero r.PH_58) = [4, 0] by decide,
      show (c5data.filter (fun r => decide (dateToken r.Time = "02/01/2024"))).length = 2
        by decide]
    norm_num
  · rw [h.1,
      show (c5data.filter (fun r => decide (dateToken r.Time = "02/01/2024"))).length = 2
        by decide]
    norm_num

/-! ### Outlier detection (`identifyOutliers`, dataProcessing.ts lines 129–153) -/

/-- `identifyOutliers`: collect the numeric values of `field`
(`Number(item[field])` filtered by `!isNaN`), sort ascending, read
Q1/Q3 at positions `floor(0.25 n)` / `floor(0.75 n)`, and return the
indices (in original order, via `forEach((item, index))`) of records
whose numeric value lies strictly outside the Tukey fence.  When there
are no numeric values the quartile reads are `undefined`, the bounds are
`NaN`, and every comparison is false — the empty branch. -/
def identifyOutliers (data : List IoTData) (field : NumField) : List ℕ :=
  let values := (data.map (fun item => getField item field)).filterMap id
  let sorted := List.insertionSort (fun a b => a ≤ b) values
  match sorted[sorted.length / 4]?, sorted[3 * sorted.length / 4]? with
  | some q1, some q3 =>
    let iqr := q3 - q1
    let lowerBound := q1 - 3 / 2 * iqr
    let upperBound := q3 + 3 / 2 * iqr
    (List.range data.length).filterMap (fun index =>
      match data[index]? with
      | some item =>
        match getField item field with
        | some value =>
          if value < lowerBound ∨ upperBound < value then some index else none
        | none => none
      | none => none)
  | _, _ => []

theorem filterMap_if_eq_filter {α : Type} [DecidableEq α] (l : List α) (p : α → Bool) :
    l.filterMap (fun a => if p a then some a else none) = l.filter p := by
  induction l with
  | nil => rfl
  | cons a rest ih =>
    rw [List.filterMap_cons, List.filter_cons]
    cases h : p a <;> simp [h, ih]

/-- Claim C3: `identifyOutliers(records, field)` returns exactly the
indices, in original dataset order, of records whose value for `field`
is numeric and lies strictly outside `[Q1 − 1.5·IQR, Q3 + 1.5·IQR]`,
where Q1 and Q3 are the elements at positions `⌊0.25·n⌋` and `⌊0.75·n⌋`
of THE ascending-sorted list of the n numeric values (any sorted
permutation of the numeric values — it is unique). -/
theorem identifyOutliers_spec (data : List IoTData) (field : NumField)
    (svals : List ℚ) (q1 q3 lowerBound upperBound : ℚ)
    (hperm : svals.Perm ((data.map (fun item => getField item field)).filterMap id))
    (hsort : svals.Sorted (· ≤ ·))
    (hq1 : svals[svals.length / 4]? = some q1)
    (hq3 : svals[3 * svals.length / 4]? = some q3)
    (hlb : lowerBound = q1 - 3 / 2 * (q3 - q1))
    (hub : upperBound = q3 + 3 / 2 * (q3 - q1)) :
    identifyOutliers data field =
      (List.range data.length).filter (fun index =>
        (data[index]?.bind (fun item => getField item field)).any
          (fun v => decide (v < lowerBound ∨ upperBound < v))) := by
  have hsEq : List.insertionSort (fun a b => a ≤ b)
      ((data.map (fun item => getField item field)).filterMap id) = svals :=
    List.eq_of_perm_of_sorted ((List.perm_insertionSort _ _).trans hperm.symm)
      (List.sorted_insertionSort _ _) hsort
  simp only [identifyOutliers, hsEq, hq1, hq3]
  rw [← hlb, ← hub,
    ← filterMap_if_eq_filter (List.range data.length) (fun index =>
      (data[index]?.bind (fun item => getField item field)).any
        (fun v => decide (v < lowerBound ∨ upperBound < v)))]
  apply List.filterMap_congr
  intro index _
  cases h1 : data[index]? with
  | none => rfl
  | some item =>
    cases h2 : getField item field with
    | none => simp [h2]
    | some value =>
      by_cases hc : value < lowerBound ∨ upperBound < value
      · simp [h2, hc]
      · simp [h2, hc]

/-- Records carrying the spec example's field values
`[1, 2, 3, 4, 5, 6, 100]` in `PH_58`. -/
def c3data : List IoTData :=
  [{ sampleRec "t1" with PH_58 := some 1 },
   { sampleRec "t2" with PH_58 := some 2 },
   { sampleRec "t3" with PH_58 := some 3 },
   { sampleRec "t4" with PH_58 := some 4 },
   { sampleRec "t5" with PH_58 := some 5 },
   { sampleRec "t6" with PH_58 := some 6 },
   { sampleRec "t7" with PH_58 := some 100 }]

/-- Witness for C3: on field values `[1,2,3,4,5,6,100]` (Q1 = 2 at
position ⌊1.75⌋, Q3 = 6 at position ⌊5.25⌋, fence `[-4, 12]`) exactly
the index holding 100 is flagged. -/
theorem identifyOutliers_spec_witness :
    ([1, 2, 3, 4, 5, 6, 100] : List ℚ).Perm
      ((c3data.map (fun item => getField item .PH_58)).filterMap id) ∧
    identifyOutliers c3data .PH_58 = [6] := by
  have h := identifyOutliers_spec c3data .PH_58 [1, 2, 3, 4, 5, 6, 100] 2 6 (-4) 12
    (by decide) (by decide) (by decide) (by decide) (by norm_num) (by norm_num)
  refine ⟨by decide, ?_⟩
  rw [h]
  decide

/-! ### Outlier correction (`correctOutliers`, dataProcessing.ts lines 158–191) -/

/-- The scan `while (prevIndex >= 0 && outlierIndices.includes(prevIndex))
prevIndex--`, started at `index - 1`: the nearest index below `index`
not in `outlierIndices`, or `none` when the scan walks past 0. -/
def findPrevAux (flagged : List ℕ) : ℕ → Option ℕ
  | 0 => none
  | j + 1 => if j ∈ flagged then findPrevAux flagged j else some j

/-- The scan `while (nextIndex < data.length &&
outlierIndices.includes(nextIndex)) nextIndex++`, with explicit fuel
(the loop runs at most `len - j` times). -/
def findNextAux (flagged : List ℕ) (len : ℕ) : ℕ → ℕ → ℕ
  | 0, j => j
  | fuel + 1, j =>
    if j < len ∧ j ∈ flagged then findNextAux flagged len fuel (j + 1) else j

/-- The value of `nextIndex` after the forward scan from `j`. -/
def findNext (flagged : List ℕ) (len j : ℕ) : ℕ :=
  findNextAux flagged len (len - j) j

/-- `Number(x) + Number(y)` on two field values: `NaN` (`none`)
propagates. -/
def jsAddOpt : Option ℚ → Option ℚ → Option ℚ
  | some a, some b => some (a + b)
  | _, _ => none

theorem findNextAux_ge (flagged : List ℕ) (len : ℕ) :
    ∀ (fuel j : ℕ), j ≤ findNextAux flagged len fuel j := by
  intro fuel
  induction fuel with
  | zero => intro j; exact le_rfl
  | succ fuel ih =>
    intro j
    unfold findNextAux
    by_cases h : j < len ∧ j ∈ flagged
    · rw [if_pos h]
      exact le_trans (Nat.le_succ j) (ih (j + 1))
    · rw [if_neg h]

theorem findNextAux_skipped (flagged : List ℕ) (len : ℕ) :
    ∀ (fuel j k : ℕ), j ≤ k → k < findNextAux flagged len fuel j →
      k < len ∧ k ∈ flagged := by
  intro fuel
  induction fuel with
  | zero =>
    intro j k hjk hk
    exact absurd (lt_of_le_of_lt hjk hk) (lt_irrefl j)
  | succ fuel ih =>
    intro j k hjk hk
    unfold findNextAux at hk
    by_cases h : j < len ∧ j ∈ flagged
    · rw [if_pos h] at hk
      rcases Nat.eq_or_lt_of_le hjk with rfl | hlt
      · exact h
      · exact ih (j + 1) k hlt hk
    · rw [if_neg h] at hk
      exact absurd (lt_of_le_of_lt hjk hk) (lt_irrefl j)

theorem findNextAux_not_flagged (flagged : List ℕ) (len : ℕ) :
    ∀ (fuel j : ℕ), len ≤ j + fuel → findNextAux flagged len fuel j < len →
      findNextAux flagged len fuel j ∉ flagged := by
  intro fuel
  induction fuel with
  | zero =>
    intro j hfuel hlt
    unfold findNextAux at hlt
    omega
  | succ fuel ih =>
    intro j hfuel hlt
    unfold findNextAux at hlt ⊢
    by_cases h : j < len ∧ j ∈ flagged
    · rw [if_pos h] at hlt ⊢
      exact ih (j + 1) (by omega) hlt
    · rw [if_neg h] at hlt ⊢
      intro hc
      exact h ⟨hlt, hc⟩

theorem findNext_eq_of_nearest (flagged : List ℕ) (len j nx : ℕ)
    (h1 : j ≤ nx) (h2 : nx < len) (h3 : nx ∉ flagged)
    (h4 : ∀ k, j ≤ k → k < nx → k ∈ flagged) :
    findNext flagged len j = nx := by
  have hge := findNextAux_ge flagged len (len - j) j
  rcases lt_trichotomy (findNext flagged len j) nx with hlt | heq | hgt
  · have hR := findNextAux_not_flagged flagged len (len - j) j (by omega)
      (lt_trans hlt h2)
    exact absurd (h4 _ hge hlt) hR
  · exact heq
  · exact absurd (findNextAux_skipped flagged len (len - j) j nx h1 hgt).2 h3

theorem findNext_ge_len_of_all_flagged (flagged : List ℕ) (len j : ℕ)
    (h : ∀ k, j ≤ k → k < len → k ∈ flagged) :
    ¬ findNext flagged len j < len := by
  intro hlt
  have hge := findNextAux_ge flagged len (len - j) j
  have hnf := findNextAux_not_flagged flagged len (len - j) j (by omega) hlt
  exact hnf (h _ hge hlt)

theorem findPrevAux_some (flagged : List ℕ) :
    ∀ (i p : ℕ), findPrevAux flagged i = some p →
      p < i ∧ p ∉ flagged ∧ ∀ k, p < k → k < i → k ∈ flagged := by
  intro i
  induction i with
  | zero => intro p h; cases h
  | succ j ih =>
    intro p h
    unfold findPrevAux at h
    by_cases hj : j ∈ flagged
    · rw [if_pos hj] at h
      obtain ⟨h1, h2, h3⟩ := ih p h
      refine ⟨Nat.lt_succ_of_lt h1, h2, fun k hk1 hk2 => ?_⟩
      rcases Nat.lt_succ_iff_lt_or_eq.mp hk2 with hk | rfl
      · exact h3 k hk1 hk
      · exact hj
    · rw [if_neg hj] at h
      have hp : j = p := Option.some.inj h
      subst hp
      exact ⟨Nat.lt_succ_self j, hj, fun k hk1 hk2 => absurd hk1 (by omega)⟩

theorem findPrevAux_none (flagged : List ℕ) :
    ∀ (i : ℕ), findPrevAux flagged i = none → ∀ k, k < i → k ∈ flagged := by
  intro i
  induction i with
  | zero => intro _ k hk; omega
  | succ j ih =>
    intro h k hk
    unfold findPrevAux at h
    by_cases hj : j ∈ flagged
    · rw [if_pos hj] at h
      rcases Nat.lt_succ_iff_lt_or_eq.mp hk with hk' | rfl
      · exact ih h k hk'
      · exact hj
    · rw [if_neg hj] at h
      cases h

theorem findPrevAux_eq_of_nearest (flagged : List ℕ) (i p : ℕ)
    (h1 : p < i) (h2 : p ∉ flagged) (h3 : ∀ k, p < k → k < i → k ∈ flagged) :
    findPrevAux flagged i = some p := by
  cases h : findPrevAux flagged i with
  | none => exact absurd (findPrevAux_none flagged i h p h1) h2
  | some p' =>
    obtain ⟨h1', h2', h3'⟩ := findPrevAux_some flagged i p' h
    rcases lt_trichotomy p p' with hlt | heq | hgt
    · exact absurd (h3 p' hlt h1') h2'
    · rw [heq]
    · exact absurd (h3' p hgt h1) h2

theorem findPrevAux_eq_none_of_all (flagged : List ℕ) (i : ℕ)
    (h : ∀ k, k < i → k ∈ flagged) :
    findPrevAux flagged i = none := by
  cases hf : findPrevAux flagged i with
  | none => rfl
  | some p =>
    obtain ⟨h1, h2, -⟩ := findPrevAux_some flagged i p hf
    exact absurd (h p h1) h2

/-- One iteration of the `outlierIndices.forEach` body (lines 161–189).
An out-of-range read `data[i][field]` is a JS `TypeError`, modelled
`.error`; the out-of-range write `correctedData[index] = …` (where JS
would instead lengthen the array with holes) is also modelled `.error`.
Both are reachable only when `outlierIndices` lists positions outside
the dataset, which `identifyOutliers` never produces. -/
def correctStep (data : List IoTData) (field : NumField) (flagged : List ℕ)
    (acc : List IoTData) (index : ℕ) : Except Unit (List IoTData) :=
  let nextIndex := findNext flagged data.length (index + 1)
  match findPrevAux flagged index with
  | some prevIndex =>
    if nextIndex < data.length then
      match data[prevIndex]?, data[nextIndex]?, acc[index]? with
      | some prevRec, some nextRec, some cur =>
        let prevValue := getField prevRec field
        let nextValue := getField nextRec field
        let correctedValue := (jsAddOpt prevValue nextValue).map (fun q => q / 2)
        .ok (acc.set index (setField cur field correctedValue))
      | _, _, _ => .error ()
    else
      match data[prevIndex]?, acc[index]? with
      | some prevRec, some cur =>
        .ok (acc.set index (setField cur field (getField prevRec field)))
      | _, _ => .error ()
  | none =>
    if nextIndex < data.length then
      match data[nextIndex]?, acc[index]? with
      | some nextRec, some cur =>
        .ok (acc.set index (setField cur field (getField nextRec field)))
      | _, _ => .error ()
    else .ok acc

/-- `correctOutliers`: start from `[...data]` and run the forEach. -/
def correctOutliers (data : List IoTData) (field : NumField)
    (outlierIndices : List ℕ) : Except Unit (List IoTData) :=
  outlierIndices.foldlM (correctStep data field outlierIndices) data

/-- The pure record-level effect of one correction at `index` (what the
step writes there, as a function of the current record `r`). -/
def correctionFor (data : List IoTData) (field : NumField) (flagged : List ℕ)
    (index : ℕ) (r : IoTData) : IoTData :=
  let nextIndex := findNext flagged data.length (index + 1)
  match findPrevAux flagged index with
  | some prevIndex =>
    if nextIndex < data.length then
      setField r field ((jsAddOpt (data[prevIndex]?.bind (fun x => getField x field))
        (data[nextIndex]?.bind (fun x => getField x field))).map (fun q => q / 2))
    else
      setField r field (data[prevIndex]?.bind (fun x => getField x field))
  | none =>
    if nextIndex < data.length then
      setField r field (data[nextIndex]?.bind (fun x => getField x field))
    else r

theorem setField_setField (r : IoTData) (f : NumField) (v v' : Option ℚ) :
    setField (setField r f v) f v' = setField r f v' := by
  cases f <;> rfl

theorem Time_setField (r : IoTData) (f : NumField) (v : Option ℚ) :
    (setField r f v).Time = r.Time := by
  cases f <;> rfl

theorem getField_setField_self (r : IoTData) (f : NumField) (v : Option ℚ) :
    getField (setField r f v) f = v := by
  cases f <;> rfl

theorem getField_setField_ne (r : IoTData) (f : NumField) (v : Option ℚ)
    (g : NumField) (h : g ≠ f) :
    getField (setField r f v) g = getField r g := by
  cases f <;> cases g <;> first | exact absurd rfl h | rfl

theorem list_set_self {α : Type} (l : List α) (i : ℕ) (a : α)
    (h : l[i]? = some a) : l.set i a = l := by
  apply List.ext_getElem?
  intro j
  by_cases hj : i = j
  · subst hj
    rw [List.getElem?_set_self (by
      cases hlt : decide (i < l.length) with
      | true => exact of_decide_eq_true hlt
      | false =>
        rw [List.getElem?_eq_none (Nat.le_of_not_lt (of_decide_eq_false hlt))] at h
        cases h), h]
  · rw [List.getElem?_set_ne hj]

theorem correctionFor_idem (data : List IoTData) (field : NumField)
    (flagged : List ℕ) (index : ℕ) (r : IoTData) :
    correctionFor data field flagged index (correctionFor data field flagged index r) =
      correctionFor data field flagged index r := by
  unfold correctionFor
  cases hp : findPrevAux flagged index with
  | some p =>
    by_cases hn : findNext flagged data.length (index + 1) < data.length
    · simp [hn, setField_setField]
    · simp [hn, setField_setField]
  | none =>
    by_cases hn : findNext flagged data.length (index + 1) < data.length
    · simp [hn, setField_setField]
    · simp [hn]

theorem correctStep_ok (data : List IoTData) (field : NumField) (flagged : List ℕ)
    (acc : List IoTData) (index : ℕ) (cur : IoTData)
    (hidx_lt : index < data.length)
    (hcur : acc[index]? = some cur) :
    correctStep data field flagged acc index =
      .ok (acc.set index (correctionFor data field flagged index cur)) := by
  unfold correctStep correctionFor
  cases hp : findPrevAux flagged index with
  | some p =>
    have hplt : p < data.length :=
      lt_trans (findPrevAux_some flagged index p hp).1 hidx_lt
    have hdp : data[p]? = some data[p] := List.getElem?_eq_getElem hplt
    by_cases hn : findNext flagged data.length (index + 1) < data.length
    · have hdn : data[findNext flagged data.length (index + 1)]? =
          some data[findNext flagged data.length (index + 1)] :=
        List.getElem?_eq_getElem hn
      simp only [if_pos hn, hdp, hdn, hcur]
      rfl
    · simp only [if_neg hn, hdp, hcur]
      rfl
  | none =>
    by_cases hn : findNext flagged data.length (index + 1) < data.length
    · have hdn : data[findNext flagged data.length (index + 1)]? =
          some data[findNext flagged data.length (index + 1)] :=
        List.getElem?_eq_getElem hn
      simp only [if_pos hn, hdn, hcur]
      rfl
    · simp only [if_neg hn]
      rw [list_set_self acc index cur hcur]

theorem foldlM_correctStep_ok (data : List IoTData) (field : NumField)
    (flagged : List ℕ) (hrange : ∀ i ∈ flagged, i < data.length) :
    ∀ (todo : List ℕ), (∀ i ∈ todo, i ∈ flagged) →
    ∀ (g : ℕ → Bool) (acc : List IoTData), acc.length = data.length →
    (∀ j, acc[j]? = (data[j]?).map
      (fun r => if g j then correctionFor data field flagged j r else r)) →
    ∃ out, todo.foldlM (correctStep data field flagged) acc = Except.ok out ∧
      out.length = data.length ∧
      ∀ j, out[j]? = (data[j]?).map (fun r =>
        if g j || decide (j ∈ todo) then correctionFor data field flagged j r else r) := by
  intro todo
  induction todo with
  | nil =>
    intro _ g acc hlen hacc
    refine ⟨acc, rfl, hlen, fun j => ?_⟩
    rw [hacc j]
    cases hd : data[j]? <;> simp
  | cons i rest ih =>
    intro hsub g acc hlen hacc
    have hiflag : i ∈ flagged := hsub i (by simp)
    have hilt : i < data.length := hrange i hiflag
    have hialt : i < acc.length := hlen ▸ hilt
    have hcur : acc[i]? = some acc[i] := List.getElem?_eq_getElem hialt
    have hdi : data[i]? = some data[i] := List.getElem?_eq_getElem hilt
    have hcurval : acc[i] =
        if g i then correctionFor data field flagged i data[i] else data[i] := by
      have := hacc i
      rw [hcur, hdi] at this
      exact Option.some.inj this
    rw [List.foldlM_cons,
      correctStep_ok data field flagged acc i acc[i] hilt hcur]
    have hbind : (Except.ok (ε := Unit)
        (acc.set i (correctionFor data field flagged i acc[i])) >>=
          fun b => rest.foldlM (correctStep data field flagged) b) =
        rest.foldlM (correctStep data field flagged)
          (acc.set i (correctionFor data field flagged i acc[i])) := rfl
    rw [hbind]
    have hinv : ∀ j, (acc.set i (correctionFor data field flagged i acc[i]))[j]? =
        (data[j]?).map (fun r =>
          if (g j || decide (j = i)) then correctionFor data field flagged j r else r) := by
      intro j
      by_cases hj : i = j
      · subst hj
        rw [List.getElem?_set_self hialt, hdi]
        simp only [Option.map_some', decide_eq_true (rfl : i = i), Bool.or_true, if_pos rfl]
        rw [hcurval]
        by_cases hg : g i = true
        · rw [if_pos hg, correctionFor_idem]
          simp
        · rw [if_neg hg]
          simp
      · rw [List.getElem?_set_ne hj, hacc j]
        have hji : decide (j = i) = false := decide_eq_false (fun hc => hj hc.symm)
        rw [hji]
        cases hd : data[j]? <;> simp
    obtain ⟨out, hout, hlen', hdesc⟩ := ih (fun k hk => hsub k (by simp [hk]))
      (fun j => g j || decide (j = i))
      (acc.set i (correctionFor data field flagged i acc[i]))
      (by rw [List.length_set, hlen]) hinv
    refine ⟨out, hout, hlen', fun j => ?_⟩
    rw [hdesc j]
    have hcond : ((g j || decide (j = i)) || decide (j ∈ rest)) =
        (g j || decide (j ∈ i :: rest)) := by
      simp [List.mem_cons, Bool.or_assoc]
    simp only [hcond]

/-- Pointwise description of a successful `correctOutliers` run: every
position holds the input record, with `correctionFor` applied exactly at
the flagged positions. -/
theorem correctOutliers_ok (data : List IoTData) (field : NumField)
    (flagged : List ℕ) (hrange : ∀ i ∈ flagged, i < data.length) :
    ∃ out, correctOutliers data field flagged = .ok out ∧
      out.length = data.length ∧
      ∀ j, out[j]? = (data[j]?).map (fun r =>
        if j ∈ flagged then correctionFor data field flagged j r else r) := by
  obtain ⟨out, hout, hlen, hdesc⟩ := foldlM_correctStep_ok data field flagged hrange
    flagged (fun _ hi => hi) (fun _ => false) data rfl
    (fun j => by cases hd : data[j]? <;> simp)
  refine ⟨out, hout, hlen, fun j => ?_⟩
  rw [hdesc j]
  cases hd : data[j]? <;> simp

theorem correctionFor_Time (data : List IoTData) (field : NumField)
    (flagged : List ℕ) (index : ℕ) (r : IoTData) :
    (correctionFor data field flagged index r).Time = r.Time := by
  unfold correctionFor
  cases hp : findPrevAux flagged index with
  | some p =>
    by_cases hn : findNext flagged data.length (index + 1) < data.length <;>
      simp [hn, Time_setField]
  | none =>
    by_cases hn : findNext flagged data.length (index + 1) < data.length <;>
      simp [hn, Time_setField]

theorem correctionFor_getField_ne (data : List IoTData) (field : NumField)
    (flagged : List ℕ) (index : ℕ) (r : IoTData) (g : NumField) (hg : g ≠ field) :
    getField (correctionFor data field flagged index r) g = getField r g := by
  unfold correctionFor
  cases hp : findPrevAux flagged index with
  | some p =>
    by_cases hn : findNext flagged data.length (index + 1) < data.length <;>
      simp [hn, getField_setField_ne _ _ _ _ hg]
  | none =>
    by_cases hn : findNext flagged data.length (index + 1) < data.length <;>
      simp [hn, getField_setField_ne _ _ _ _ hg]

/-- Claim C9: `correctOutliers` returns a new sequence (the embedding is
pure, so the caller's input list is untouched by construction) in which
every record at an index NOT in the flagged set is the input record
verbatim, and every record at a flagged index agrees with the input
record on `Time` and on every sensor field other than the named one. -/
theorem correctOutliers_frame (data : List IoTData) (field : NumField)
    (flagged : List ℕ) (hrange : ∀ i ∈ flagged, i < data.length) :
    ∃ out, correctOutliers data field flagged = .ok out ∧
      out.length = data.length ∧
      (∀ j, j ∉ flagged → out[j]? = data[j]?) ∧
      (∀ j ∈ flagged, ∀ rj dj, out[j]? = some rj → data[j]? = some dj →
        rj.Time = dj.Time ∧ ∀ g, g ≠ field → getField rj g = getField dj g) := by
  obtain ⟨out, hout, hlen, hdesc⟩ := correctOutliers_ok data field flagged hrange
  refine ⟨out, hout, hlen, fun j hj => ?_, fun j hj rj dj hrj hdj => ?_⟩
  · rw [hdesc j]
    cases hd : data[j]? <;> simp [hj]
  · have hthis := hdesc j
    rw [hrj, hdj] at hthis
    simp only [Option.map_some', if_pos hj] at hthis
    have hrj' : rj = correctionFor data field flagged j dj := Option.some.inj hthis
    subst hrj'
    exact ⟨correctionFor_Time data field flagged j dj,
      fun g hg => correctionFor_getField_ne data field flagged j dj g hg⟩

/-- Records carrying field values 10, 100, 20; index 1 is the outlier. -/
def c4data : List IoTData :=
  [{ sampleRec "t1" with PH_58 := some 10 },
   { sampleRec "t2" with PH_58 := some 100 },
   { sampleRec "t3" with PH_58 := some 20 }]

/-- Witness for C9: with index 1 flagged in a 3-record list, the
unflagged indices 0 and 2 are returned verbatim, and the corrected
record keeps its `Time` and non-named fields. -/
theorem correctOutliers_frame_witness :
    (∀ i ∈ [1], i < c4data.length) ∧
    (∃ out, correctOutliers c4data .PH_58 [1] = .ok out ∧
      out.length = c4data.length ∧
      (∀ j, j ∉ [1] → out[j]? = c4data[j]?) ∧
      (∀ j ∈ [1], ∀ rj dj, out[j]? = some rj → c4data[j]? = some dj →
        rj.Time = dj.Time ∧ ∀ g, g ≠ NumField.PH_58 → getField rj g = getField dj g)) :=
  ⟨by decide, correctOutliers_frame c4data .PH_58 [1] (by decide)⟩

/-- Claim C4: at every flagged index, the correction writes the
arithmetic mean of the numeric values at the nearest unflagged lower and
higher indices when both exist, copies the single neighbour's value when
only one exists, and leaves the record unchanged when neither exists. -/
theorem correctOutliers_interpolation (data : List IoTData) (field : NumField)
    (flagged : List ℕ) (hrange : ∀ i ∈ flagged, i < data.length)
    (index : ℕ) (hidx : index ∈ flagged) :
    ∃ out, correctOutliers data field flagged = .ok out ∧
      ∀ r, data[index]? = some r →
      ((∀ p, p < index → p ∉ flagged → (∀ k < index, p < k → k ∈ flagged) →
        ∀ nx, index < nx → nx < data.length → nx ∉ flagged →
          (∀ k < nx, index < k → k ∈ flagged) →
        ∀ rp vp rn vn, data[p]? = some rp → getField rp field = some vp →
          data[nx]? = some rn → getField rn field = some vn →
          out[index]? = some (setField r field (some ((vp + vn) / 2)))) ∧
      (∀ p, p < index → p ∉ flagged → (∀ k < index, p < k → k ∈ flagged) →
        (∀ k < data.length, index < k → k ∈ flagged) →
        ∀ rp, data[p]? = some rp →
          out[index]? = some (setField r field (getField rp field))) ∧
      ((∀ k < index, k ∈ flagged) →
        ∀ nx, index < nx → nx < data.length → nx ∉ flagged →
          (∀ k < nx, index < k → k ∈ flagged) →
        ∀ rn, data[nx]? = some rn →
          out[index]? = some (setField r field (getField rn field))) ∧
      ((∀ k < index, k ∈ flagged) → (∀ k < data.length, index < k → k ∈ flagged) →
        out[index]? = some r)) := by
  obtain ⟨out, hout, hlen, hdesc⟩ := correctOutliers_ok data field flagged hrange
  refine ⟨out, hout, fun r hr => ?_⟩
  have hval : out[index]? = some (correctionFor data field flagged index r) := by
    rw [hdesc index, hr]
    simp [hidx]
  refine ⟨?_, ?_, ?_, ?_⟩
  · intro p hp1 hp2 hp3 nx hn1 hn2 hn3 hn4 rp vp rn vn hrp hvp hrn hvn
    have hprev : findPrevAux flagged index = some p :=
      findPrevAux_eq_of_nearest flagged index p hp1 hp2 (fun k hk1 hk2 => hp3 k hk2 hk1)
    have hnext : findNext flagged data.length (index + 1) = nx :=
      findNext_eq_of_nearest flagged data.length (index + 1) nx hn1 hn2 hn3
        (fun k hk1 hk2 => hn4 k hk2 (by omega))
    rw [hval]
    have hbp : (some rp).bind (fun x => getField x field) = some vp := hvp
    have hbn : (some rn).bind (fun x => getField x field) = some vn := hvn
    simp only [correctionFor, hprev, hnext, if_pos hn2, hrp, hrn, hbp, hbn]
    rfl
  · intro p hp1 hp2 hp3 hnone rp hrp
    have hprev : findPrevAux flagged index = some p :=
      findPrevAux_eq_of_nearest flagged index p hp1 hp2 (fun k hk1 hk2 => hp3 k hk2 hk1)
    have hnext : ¬ findNext flagged data.length (index + 1) < data.length :=
      findNext_ge_len_of_all_flagged flagged data.length (index + 1)
        (fun k hk1 hk2 => hnone k hk2 (by omega))
    rw [hval]
    have hbp : (some rp).bind (fun x => getField x field) = getField rp field := rfl
    simp only [correctionFor, hprev, if_neg hnext, hrp, hbp]
  · intro hnoprev nx hn1 hn2 hn3 hn4 rn hrn
    have hprev : findPrevAux flagged index = none :=
      findPrevAux_eq_none_of_all flagged index (fun k hk => hnoprev k hk)
    have hnext : findNext flagged data.length (index + 1) = nx :=
      findNext_eq_of_nearest flagged data.length (index + 1) nx hn1 hn2 hn3
        (fun k hk1 hk2 => hn4 k hk2 (by omega))
    rw [hval]
    have hbn : (some rn).bind (fun x => getField x field) = getField rn field := rfl
    simp only [correctionFor, hprev, hnext, if_pos hn2, hrn, hbn]
  · intro hnoprev hnonext
    have hprev : findPrevAux flagged index = none :=
      findPrevAux_eq_none_of_all flagged index (fun k hk => hnoprev k hk)
    have hnext : ¬ findNext flagged data.length (index + 1) < data.length :=
      findNext_ge_len_of_all_flagged flagged data.length (index + 1)
        (fun k hk1 hk2 => hnonext k hk2 (by omega))
    rw [hval]
    simp only [correctionFor, hprev, if_neg hnext]

/-- Witness for C4: values `[10, OUTLIER, 20]` with index 1 flagged —
the correction writes `(10 + 20) / 2 = 15` at index 1. -/
theorem correctOutliers_interpolation_witness :
    ∃ out, correctOutliers c4data .PH_58 [1] = .ok out ∧
      out[1]? = some (setField { sampleRec "t2" with PH_58 := some 100 } .PH_58
        (some 15)) := by
  obtain ⟨out, hout, hr⟩ :=
    correctOutliers_interpolation c4data .PH_58 [1] (by decide) 1 (by decide)
  have h := (hr { sampleRec "t2" with PH_58 := some 100 } (by decide)).1
    0 (by decide) (by decide) (by decide)
    2 (by decide) (by decide) (by decide) (by decide)
    { sampleRec "t1" with PH_58 := some 10 } 10
    { sampleRec "t3" with PH_58 := some 20 } 20
    (by decide) (by decide) (by decide) (by decide)
  refine ⟨out, hout, ?_⟩
  rw [h, show ((10 : ℚ) + 20) / 2 = 15 by norm_num]

/-! ### Time-range filtering (`filterByTimeRange`, dataProcessing.ts lines 205–232) -/

/-- Code-unit lexicographic comparison of character lists (the order
behind JS `<`/`sort()` on strings). -/
def charListLe : List Char → List Char → Bool
  | [], _ => true
  | _ :: _, [] => false
  | a :: as, b :: bs => decide (a < b) || (decide (a = b) && charListLe as bs)

/-- JS string comparison `a <= b`. -/
def strLe (s t : String) : Bool := charListLe s.data t.data

/-- `strLe` as a relation, for `Array.prototype.sort()`. -/
def strLeR : String → String → Prop := fun a b => strLe a b = true

instance : DecidableRel strLeR := fun a b =>
  inferInstanceAs (Decidable (strLe a b = true))

theorem charListLe_refl : ∀ l : List Char, charListLe l l = true := by
  intro l
  induction l with
  | nil => rfl
  | cons a as ih => simp [charListLe, ih]

theorem charListLe_nil_iff : ∀ l : List Char, charListLe l [] = true ↔ l = [] := by
  intro l
  cases l with
  | nil => simp [charListLe]
  | cons a as => simp [charListLe]

theorem charListLe_total : ∀ l m : List Char,
    charListLe l m = true ∨ charListLe m l = true := by
  intro l
  induction l with
  | nil => intro m; left; rfl
  | cons a as ih =>
    intro m
    cases m with
    | nil => right; rfl
    | cons b bs =>
      rcases lt_trichotomy a b with hab | hab | hab
      · left; simp [charListLe, hab]
      · subst hab
        rcases ih bs with h | h
        · left; simp [charListLe, h]
        · right; simp [charListLe, h]
      · right; simp [charListLe, hab]

theorem charListLe_trans : ∀ l m n : List Char,
    charListLe l m = true → charListLe m n = true → charListLe l n = true := by
  intro l
  induction l with
  | nil => intro m n _ _; rfl
  | cons a as ih =>
    intro m n h1 h2
    cases m with
    | nil => simp [charListLe] at h1
    | cons b bs =>
      cases n with
      | nil => simp [charListLe] at h2
      | cons c cs =>
        simp only [charListLe, Bool.or_eq_true, Bool.and_eq_true,
          decide_eq_true_eq] at h1 h2 ⊢
        rcases h1 with hab | ⟨hab, htail1⟩
        · rcases h2 with hbc | ⟨hbc, -⟩
          · exact Or.inl (lt_trans hab hbc)
          · exact Or.inl (hbc ▸ hab)
        · subst hab
          rcases h2 with hbc | ⟨hbc, htail2⟩
          · exact Or.inl hbc
          · exact Or.inr ⟨hbc, ih bs cs htail1 htail2⟩

theorem charListLe_antisymm : ∀ l m : List Char,
    charListLe l m = true → charListLe m l = true → l = m := by
  intro l
  induction l with
  | nil =>
    intro m _ h2
    exact ((charListLe_nil_iff m).mp h2).symm
  | cons a as ih =>
    intro m h1 h2
    cases m with
    | nil => simp [charListLe] at h1
    | cons b bs =>
      simp only [charListLe, Bool.or_eq_true, Bool.and_eq_true,
        decide_eq_true_eq] at h1 h2
      rcases h1 with hab | ⟨hab, htail1⟩
      · rcases h2 with hba | ⟨hba, -⟩
        · exact absurd (lt_trans hab hba) (lt_irrefl a)
        · exact absurd (hba ▸ hab) (lt_irrefl b)
      · subst hab
        rcases h2 with hba | ⟨-, htail2⟩
        · exact absurd hba (lt_irrefl a)
        · rw [ih bs htail1 htail2]

instance : IsTotal String strLeR := ⟨fun a b => charListLe_total a.data b.data⟩

instance : IsTrans String strLeR :=
  ⟨fun a b c h1 h2 => charListLe_trans a.data b.data c.data h1 h2⟩

theorem strLe_refl (s : String) : strLe s s = true := charListLe_refl s.data

theorem strLe_antisymm (a b : String) (h1 : strLe a b = true)
    (h2 : strLe b a = true) : a = b :=
  String.ext (charListLe_antisymm a.data b.data h1 h2)

/-- JS prefix test `s.startsWith(pre)`. -/
def listIsPrefixOf : List Char → List Char → Bool
  | [], _ => true
  | _ :: _, [] => false
  | a :: as, b :: bs => decide (a = b) && listIsPrefixOf as bs

def jsStartsWith (s pre : String) : Bool := listIsPrefixOf pre.data s.data

/-- The three values of the `timeRange` parameter. -/
inductive TimeRange where
  | day
  | week
  | custom
deriving DecidableEq

/-- JS truthiness of an optional string argument (absent and `""` are
falsy). -/
def truthyStr : Option String → Bool
  | some s => decide (s ≠ "")
  | none => false

/-- `item.Time.split(' ')[0].split('/').reverse().join('-')`. -/
def reorderDate (s : String) : String :=
  String.intercalate "-" ((s.splitOn "/").reverse)

/-- Comparison of two `Date` values via their numeric value; an invalid
date (`NaN`, here `none`) compares false. -/
def jsLeNum : Option ℚ → Option ℚ → Bool
  | some a, some b => decide (a ≤ b)
  | _, _ => false

/-- `filterByTimeRange`.  `jsDate` is the foreign `new Date(string)`
constructor (`none` = Invalid Date).  In the `day` branch with no data,
`uniqueDates[length - 1]` is `undefined` and JS coerces it to the string
`"undefined"` inside `startsWith` — reachable only with an empty
dataset. -/
def filterByTimeRange (jsDate : String → Option ℚ) (data : List IoTData)
    (timeRange : TimeRange) (customStartDate customEndDate : Option String) :
    List IoTData :=
  if timeRange = .custom ∧ truthyStr customStartDate ∧ truthyStr customEndDate then
    let startDate := jsDate (customStartDate.getD "")
    let endDate := jsDate (customEndDate.getD "")
    data.filter (fun item =>
      let itemDate := jsDate (reorderDate (dateToken item.Time))
      jsLeNum startDate itemDate && jsLeNum itemDate endDate)
  else if timeRange = .day then
    let dates := data.map (fun item => dateToken item.Time)
    let uniqueDates := List.insertionSort strLeR (firstDedup dates)
    match uniqueDates.getLast? with
    | some lastDate => data.filter (fun item => jsStartsWith item.Time lastDate)
    | none => data.filter (fun item => jsStartsWith item.Time "undefined")
  else
    data

/-- Spec-side lexicographic maximum of a list of strings. -/
def lexMax : List String → Option String
  | [] => none
  | s :: rest => some (rest.foldl (fun m t => if strLe m t then t else m) s)

theorem foldl_max_spec : ∀ (rest : List String) (s : String),
    (rest.foldl (fun m t => if strLe m t then t else m) s) ∈ s :: rest ∧
    strLeR s (rest.foldl (fun m t => if strLe m t then t else m) s) ∧
    ∀ x ∈ rest, strLeR x (rest.foldl (fun m t => if strLe m t then t else m) s) := by
  intro rest
  induction rest with
  | nil =>
    intro s
    exact ⟨List.mem_singleton.mpr rfl, strLe_refl s, by intro x hx; cases hx⟩
  | cons t ts ih =>
    intro s
    rw [List.foldl_cons]
    obtain ⟨hmem, hub, hall⟩ := ih (if strLe s t then t else s)
    have hss : strLeR s (if strLe s t then t else s) := by
      by_cases h : strLe s t = true
      · rw [if_pos h]; exact h
      · rw [if_neg h]; exact strLe_refl s
    have hts : strLeR t (if strLe s t then t else s) := by
      by_cases h : strLe s t = true
      · rw [if_pos h]; exact strLe_refl t
      · rw [if_neg h]
        rcases charListLe_total s.data t.data with hc | hc
        · exact absurd hc h
        · exact hc
    refine ⟨?_, charListLe_trans _ _ _ hss hub, ?_⟩
    · rcases List.mem_cons.mp hmem with he | hm
      · rw [he]
        by_cases h : strLe s t = true
        · rw [if_pos h]
          exact List.mem_cons_of_mem s (List.mem_cons_self t ts)
        · rw [if_neg h]
          exact List.mem_cons_self s (t :: ts)
      · exact List.mem_cons_of_mem s (List.mem_cons_of_mem t hm)
    · intro x hx
      rcases List.mem_cons.mp hx with rfl | hx'
      · exact charListLe_trans _ _ _ hts hub
      · exact hall x hx'

theorem lexMax_spec (l : List String) (m : String) (h : lexMax l = some m) :
    m ∈ l ∧ ∀ x ∈ l, strLeR x m := by
  cases l with
  | nil => cases h
  | cons s rest =>
    have hm : rest.foldl (fun m t => if strLe m t then t else m) s = m :=
      Option.some.inj h
    obtain ⟨hmem, hub, hall⟩ := foldl_max_spec rest s
    rw [hm] at hmem hub hall
    refine ⟨hmem, ?_⟩
    intro x hx
    rcases List.mem_cons.mp hx with rfl | hx'
    · exact hub
    · exact hall x hx'

theorem sorted_getLast?_ub : ∀ (l : List String), l.Sorted strLeR →
    ∀ m, l.getLast? = some m → ∀ x ∈ l, strLeR x m := by
  intro l
  induction l with
  | nil => intro _ m hm; cases hm
  | cons a rest ih =>
    intro hs m hm x hx
    cases rest with
    | nil =>
      have hma : m = a := (Option.some.inj hm).symm
      have hxa : x = a := List.mem_singleton.mp hx
      rw [hma, hxa]
      exact strLe_refl a
    | cons b t =>
      rw [List.getLast?_cons_cons] at hm
      rcases List.mem_cons.mp hx with rfl | hx'
      · exact (List.sorted_cons.mp hs).1 m (mem_of_getLast?_eq_some hm)
      · exact ih (List.sorted_cons.mp hs).2 m hm x hx'

/-- In `day` mode the sorted unique date list ends exactly at the
lexicographic maximum of the date tokens. -/
theorem day_lastDate_eq (dates : List String) (m : String)
    (hm : lexMax dates = some m) :
    (List.insertionSort strLeR (firstDedup dates)).getLast? = some m := by
  obtain ⟨hmmem, hmub⟩ := lexMax_spec dates m hm
  have hperm : (List.insertionSort strLeR (firstDedup dates)).Perm (firstDedup dates) :=
    List.perm_insertionSort strLeR (firstDedup dates)
  have hmem_iff : ∀ x, x ∈ List.insertionSort strLeR (firstDedup dates) ↔ x ∈ dates := by
    intro x
    rw [hperm.mem_iff]
    exact mem_firstDedup dates x
  have hne : List.insertionSort strLeR (firstDedup dates) ≠ [] := by
    intro hnil
    have : m ∈ List.insertionSort strLeR (firstDedup dates) := (hmem_iff m).mpr hmmem
    rw [hnil] at this
    cases this
  obtain ⟨M, hM⟩ := Option.isSome_iff_exists.mp (List.getLast?_isSome.mpr hne)
  have hMub : ∀ x ∈ List.insertionSort strLeR (firstDedup dates), strLeR x M :=
    sorted_getLast?_ub _ (List.sorted_insertionSort strLeR (firstDedup dates)) M hM
  have hMm : M = m := by
    apply strLe_antisymm
    · exact hmub M ((hmem_iff M).mp (mem_of_getLast?_eq_some hM))
    · exact hMub m ((hmem_iff m).mpr hmmem)
  rw [hM, hMm]

theorem dropWhile_head_not {α : Type} (p : α → Bool) :
    ∀ (l : List α) (a : α) (r : List α), l.dropWhile p = a :: r → p a = false := by
  intro l
  induction l with
  | nil => intro a r h; cases h
  | cons x xs ih =>
    intro a r h
    rw [List.dropWhile_cons] at h
    by_cases hx : p x = true
    · rw [if_pos hx] at h
      exact ih a r h
    · rw [if_neg hx] at h
      have hxa : x = a := (List.cons.injEq x xs a r ▸ h).1
      rw [← hxa]
      exact Bool.eq_false_iff.mpr hx

theorem dateToken_no_space (s : String) : ∀ c ∈ (dateToken s).data, c ≠ ' ' := by
  intro c hc
  have hmem : c ∈ s.data.takeWhile (fun c => decide (c ≠ ' ')) := hc
  have hp : (fun c : Char => decide (c ≠ ' ')) c = true :=
    @List.mem_takeWhile_imp Char (fun c => decide (c ≠ ' ')) s.data c hmem
  exact of_decide_eq_true hp

theorem time_decomp (s : String) :
    s.data = (dateToken s).data ++ s.data.dropWhile (fun c => decide (c ≠ ' ')) :=
  (List.takeWhile_append_dropWhile (fun c => decide (c ≠ ' ')) s.data).symm

theorem dropWhile_space_shape (s : String) :
    s.data.dropWhile (fun c => decide (c ≠ ' ')) = [] ∨
    ∃ r', s.data.dropWhile (fun c => decide (c ≠ ' ')) = ' ' :: r' := by
  cases hd : s.data.dropWhile (fun c => decide (c ≠ ' ')) with
  | nil => exact Or.inl rfl
  | cons a r' =>
    refine Or.inr ⟨r', ?_⟩
    have hpa : (fun c => decide (c ≠ ' ')) a = false :=
      dropWhile_head_not _ s.data a r' hd
    have hasp : a = ' ' := by
      by_contra hne
      have htrue : (fun c => decide (c ≠ ' ')) a = true := decide_eq_true hne
      rw [htrue] at hpa
      cases hpa
    rw [hasp]

/-- Core prefix/maximality argument: if every character of `P` is a
non-space, `T ≤ P` lexicographically and `R` is empty or starts with a
space, then `P` is a prefix of `T ++ R` exactly when `P = T`. -/
theorem listIsPrefixOf_token : ∀ (P T R : List Char),
    (∀ c ∈ P, c ≠ ' ') → charListLe T P = true →
    (R = [] ∨ ∃ r', R = ' ' :: r') →
    (listIsPrefixOf P (T ++ R) = true ↔ P = T) := by
  intro P
  induction P with
  | nil =>
    intro T R _ hle _
    simp only [listIsPrefixOf]
    constructor
    · intro _
      exact ((charListLe_nil_iff T).mp hle).symm
    · intro _; trivial
  | cons c P' ih =>
    intro T R hP hle hR
    cases T with
    | nil =>
      rw [List.nil_append]
      constructor
      · intro hpre
        rcases hR with rfl | ⟨r', rfl⟩
        · simp [listIsPrefixOf] at hpre
        · simp only [listIsPrefixOf, Bool.and_eq_true, decide_eq_true_eq] at hpre
          exact absurd hpre.1 (hP c (List.mem_cons_self c P'))
      · intro h; cases h
    | cons d T' =>
      simp only [List.cons_append, listIsPrefixOf, Bool.and_eq_true,
        decide_eq_true_eq]
      simp only [charListLe, Bool.or_eq_true, Bool.and_eq_true,
        decide_eq_true_eq] at hle
      by_cases hcd : c = d
      · subst hcd
        rcases hle with hlt | ⟨-, hle'⟩
        · exact absurd hlt (lt_irrefl c)
        · have hih := ih T' R (fun x hx => hP x (List.mem_cons_of_mem c hx)) hle' hR
          constructor
          · rintro ⟨-, hpre⟩
            rw [hih.mp hpre]
          · intro heq
            injection heq with h1 h2
            exact ⟨rfl, hih.mpr h2⟩
      · constructor
        · rintro ⟨hdc, -⟩
          exact absurd hdc hcd
        · intro heq
          injection heq with h1 h2
          exact absurd h1 hcd

theorem jsStartsWith_token_eq (time m : String)
    (hms : ∀ c ∈ m.data, c ≠ ' ')
    (hle : strLe (dateToken time) m = true) :
    jsStartsWith time m = decide (dateToken time = m) := by
  have hiff : listIsPrefixOf m.data time.data = true ↔ m.data = (dateToken time).data := by
    have h1 := listIsPrefixOf_token m.data (dateToken time).data
      (time.data.dropWhile (fun c => decide (c ≠ ' '))) hms hle
      (dropWhile_space_shape time)
    rw [← time_decomp time] at h1
    exact h1
  by_cases heq : dateToken time = m
  · rw [decide_eq_true heq]
    exact hiff.mpr (heq ▸ rfl)
  · rw [decide_eq_false heq]
    cases hb : listIsPrefixOf m.data time.data with
    | false => exact hb
    | true =>
      exact absurd (String.ext (hiff.mp hb).symm) heq

theorem filterByTimeRange_day (jsDate : String → Option ℚ) (data : List IoTData)
    (cs ce : Option String) :
    filterByTimeRange jsDate data .day cs ce =
      match (List.insertionSort strLeR
          (firstDedup (data.map (fun item => dateToken item.Time)))).getLast? with
      | some lastDate => data.filter (fun item => jsStartsWith item.Time lastDate)
      | none => data.filter (fun item => jsStartsWith item.Time "undefined") := by
  unfold filterByTimeRange
  rw [if_neg (fun hcon => TimeRange.noConfusion hcon.1), if_pos rfl]

theorem filterByTimeRange_week (jsDate : String → Option ℚ) (data : List IoTData)
    (cs ce : Option String) :
    filterByTimeRange jsDate data .week cs ce = data := by
  unfold filterByTimeRange
  rw [if_neg (fun hcon => TimeRange.noConfusion hcon.1),
    if_neg (fun hcon => TimeRange.noConfusion hcon)]

/-- **C6.** On a dataset with lexicographically maximum date token `m`
(the date token is the part of `Time` before the first space; a maximum
exists exactly when the dataset is non-empty), `day` mode returns
exactly the records whose date token equals `m`, in their original
order, and `week` mode returns the input unchanged. -/
theorem filterByTimeRange_day_week (jsDate : String → Option ℚ)
    (data : List IoTData) (cs ce : Option String) (m : String)
    (hm : lexMax (data.map (fun r => dateToken r.Time)) = some m) :
    filterByTimeRange jsDate data .day cs ce =
      data.filter (fun r => decide (dateToken r.Time = m)) ∧
    filterByTimeRange jsDate data .week cs ce = data := by
  refine ⟨?_, filterByTimeRange_week jsDate data cs ce⟩
  rw [filterByTimeRange_day, day_lastDate_eq (data.map (fun r => dateToken r.Time)) m hm]
  apply List.filter_congr
  intro item hitem
  apply jsStartsWith_token_eq
  · obtain ⟨hmmem, -⟩ := lexMax_spec _ m hm
    obtain ⟨r, hr, hrm⟩ := List.mem_map.mp hmmem
    rw [← hrm]
    exact dateToken_no_space r.Time
  · obtain ⟨-, hub⟩ := lexMax_spec _ m hm
    exact hub _ (List.mem_map_of_mem _ hitem)

def c6data : List IoTData :=
  [sampleRec "01/01/2024 23:00", sampleRec "02/01/2024 00:00",
   sampleRec "01/01/2024 10:00"]

theorem filterByTimeRange_day_week_witness :
    lexMax (c6data.map (fun r => dateToken r.Time)) = some "02/01/2024" ∧
    (filterByTimeRange (fun _ => none) c6data .day none none =
        c6data.filter (fun r => decide (dateToken r.Time = "02/01/2024")) ∧
      filterByTimeRange (fun _ => none) c6data .week none none = c6data) :=
  ⟨by decide,
   filterByTimeRange_day_week (fun _ => none) c6data none none "02/01/2024" (by decide)⟩

/-- **C10.** In `custom` mode with the start date or the end date absent
the guard `customStartDate && customEndDate` is falsy, so the function
falls through to the default branch and returns the input unchanged. -/
theorem filterByTimeRange_custom_missing (jsDate : String → Option ℚ)
    (data : List IoTData) (cs ce : Option String)
    (h : cs = none ∨ ce = none) :
    filterByTimeRange jsDate data .custom cs ce = data := by
  have hcond : ¬ (TimeRange.custom = TimeRange.custom ∧
      truthyStr cs = true ∧ truthyStr ce = true) := by
    rintro ⟨-, h1, h2⟩
    rcases h with rfl | rfl
    · simp [truthyStr] at h1
    · simp [truthyStr] at h2
  unfold filterByTimeRange
  rw [if_neg hcond, if_neg (fun hcon => TimeRange.noConfusion hcon)]

theorem filterByTimeRange_custom_missing_witness :
    ((none : Option String) = none ∨ (some "2024-01-05" : Option String) = none) ∧
    filterByTimeRange (fun _ => none) c6data .custom none (some "2024-01-05") = c6data :=
  ⟨Or.inl rfl,
   filterByTimeRange_custom_missing (fun _ => none) c6data none (some "2024-01-05")
     (Or.inl rfl)⟩

/-- Counterexample to **C8** as stated: on an empty dataset the weekly
aggregate's `minTrübung_Zulauf` keeps its `Number.MAX_VALUE` seed, a
numeric field of the returned aggregates that is not zero. -/
theorem empty_input_min_seed_counterexample :
    (calculateAggregates []).2.«minTrübung_Zulauf» = NumberMaxValue ∧
    NumberMaxValue ≠ 0 := by
  refine ⟨rfl, ?_⟩
  intro h
  have h2 : (2 : ℚ) ^ 1024 - 2 ^ 971 = 0 := h
  norm_num at h2

/-- **C8** (amended). Each of the four functions returns on an empty
dataset, without failure, an empty or zero-valued result — except that
the weekly aggregate's `minTrübung_Zulauf` stays at its
`Number.MAX_VALUE` seed rather than zero: the time filter returns `[]`
in every mode, outlier identification returns no indices, outlier
correction succeeds with `[]`, and the aggregates are the empty daily
map and the untouched weekly seed record. -/
theorem empty_input_safe (jsDate : String → Option ℚ) (tr : TimeRange)
    (cs ce : Option String) (f : NumField) :
    filterByTimeRange jsDate [] tr cs ce = [] ∧
    identifyOutliers [] f = [] ∧
    correctOutliers [] f (identifyOutliers [] f) = Except.ok [] ∧
    (calculateAggregates []).1 = [] ∧
    (calculateAggregates []).2 = weeklyInit := by
  refine ⟨?_, rfl, rfl, rfl, rfl⟩
  cases tr with
  | day => rw [filterByTimeRange_day]; simp [firstDedup]
  | week => exact filterByTimeRange_week jsDate [] cs ce
  | custom =>
    unfold filterByTimeRange
    by_cases hcond : TimeRange.custom = TimeRange.custom ∧
        truthyStr cs = true ∧ truthyStr ce = true
    · rw [if_pos hcond]; rfl
    · rw [if_neg hcond, if_neg (fun hcon => TimeRange.noConfusion hcon)]

end DataProcessing
